import Mathlib

/-!
Shallow embedding of the meal-planner grocery-list core
(`utils.py`, `grocery_generator.py`, `pantry_manager.py`).

Quantities (Python floats) are modelled as exact rationals `ℚ`; Python's
`str.lower().strip()` is modelled character-wise (`pyLower`, `pyStrip`);
Python dicts that the code iterates over are modelled as insertion-ordered
association lists; `raise ValueError` is modelled with `Except String`.
-/

namespace MealPlanner

/-! ### Python string helpers: `str.lower()` and `str.strip()` -/

/-- `s.lower()`: character-wise lower-casing. -/
def pyLower (s : String) : String := ⟨s.data.map Char.toLower⟩

/-- Drop trailing characters satisfying `p` (the right half of `str.strip()`). -/
def dropTrailing (p : Char → Bool) : List Char → List Char
  | [] => []
  | c :: cs =>
    match dropTrailing p cs with
    | [] => if p c then [] else [c]
    | r => c :: r

/-- `s.strip()`: drop leading and trailing whitespace. -/
def pyStrip (s : String) : String :=
  ⟨dropTrailing Char.isWhitespace (s.data.dropWhile Char.isWhitespace)⟩

/-- `s.lower().strip()`, the normalisation kernel used for names and units. -/
def normStr (s : String) : String := pyStrip (pyLower s)

/-! ### Conversion tables from `utils.py` -/

/-- `VOLUME_TO_ML` from `utils.py` (factors to millilitres). -/
def VOLUME_TO_ML : List (String × ℚ) :=
  [("ml", 1), ("milliliter", 1), ("milliliters", 1),
   ("l", 1000), ("liter", 1000), ("liters", 1000),
   ("tsp", 4.929), ("teaspoon", 4.929), ("teaspoons", 4.929),
   ("tbsp", 14.787), ("tablespoon", 14.787), ("tablespoons", 14.787),
   ("cup", 236.588), ("cups", 236.588),
   ("fl oz", 29.574), ("fluid ounce", 29.574), ("fluid ounces", 29.574),
   ("pint", 473.176), ("pints", 473.176),
   ("quart", 946.353), ("quarts", 946.353),
   ("gallon", 3785.41), ("gallons", 3785.41)]

/-- `WEIGHT_TO_G` from `utils.py` (factors to grams). -/
def WEIGHT_TO_G : List (String × ℚ) :=
  [("g", 1), ("gram", 1), ("grams", 1),
   ("kg", 1000), ("kilogram", 1000), ("kilograms", 1000),
   ("oz", 28.3495), ("ounce", 28.3495), ("ounces", 28.3495),
   ("lb", 453.592), ("pound", 453.592), ("pounds", 453.592)]

/-- `COUNT_UNITS` from `utils.py`. -/
def COUNT_UNITS : List String :=
  ["whole", "item", "items", "piece", "pieces",
   "clove", "cloves", "bunch", "bunches",
   "can", "cans", "package", "packages", "pkg",
   "dozen", "slice", "slices", "pinch", "dash"]

/-- `UNIT_ALIASES` from `utils.py`. -/
def UNIT_ALIASES : List (String × String) :=
  [("tablespoon", "tbsp"), ("tablespoons", "tbsp"),
   ("teaspoon", "tsp"), ("teaspoons", "tsp"),
   ("ounce", "oz"), ("ounces", "oz"),
   ("pound", "lb"), ("pounds", "lb"),
   ("gram", "g"), ("grams", "g"),
   ("kilogram", "kg"), ("kilograms", "kg"),
   ("milliliter", "ml"), ("milliliters", "ml"),
   ("liter", "l"), ("liters", "l"),
   ("cup", "cup"), ("cups", "cup"),
   ("fluid ounce", "fl oz"), ("fluid ounces", "fl oz"),
   ("pint", "pint"), ("pints", "pint"),
   ("quart", "quart"), ("quarts", "quart"),
   ("gallon", "gallon"), ("gallons", "gallon")]

/-- `INGREDIENT_CATEGORIES` from `utils.py`. -/
def INGREDIENT_CATEGORIES : List (String × String) :=
  [("onion", "Produce"), ("onions", "Produce"), ("yellow onion", "Produce"),
   ("red onion", "Produce"), ("garlic", "Produce"), ("tomato", "Produce"),
   ("tomatoes", "Produce"), ("cherry tomatoes", "Produce"),
   ("bell pepper", "Produce"), ("red bell pepper", "Produce"),
   ("broccoli", "Produce"), ("cucumber", "Produce"), ("lettuce", "Produce"),
   ("romaine lettuce", "Produce"), ("spinach", "Produce"),
   ("carrot", "Produce"), ("carrots", "Produce"), ("celery", "Produce"),
   ("zucchini", "Produce"), ("potato", "Produce"), ("potatoes", "Produce"),
   ("lemon", "Produce"), ("lemons", "Produce"), ("lime", "Produce"),
   ("banana", "Produce"), ("bananas", "Produce"), ("apple", "Produce"),
   ("basil", "Produce"), ("cilantro", "Produce"), ("parsley", "Produce"),
   ("chicken", "Meat & Seafood"), ("chicken breast", "Meat & Seafood"),
   ("chicken thighs", "Meat & Seafood"), ("beef", "Meat & Seafood"),
   ("ground beef", "Meat & Seafood"), ("pork", "Meat & Seafood"),
   ("salmon", "Meat & Seafood"), ("shrimp", "Meat & Seafood"),
   ("fish", "Meat & Seafood"),
   ("milk", "Dairy & Eggs"), ("eggs", "Dairy & Eggs"), ("egg", "Dairy & Eggs"),
   ("cheese", "Dairy & Eggs"), ("cheddar cheese", "Dairy & Eggs"),
   ("mozzarella", "Dairy & Eggs"), ("parmesan cheese", "Dairy & Eggs"),
   ("feta cheese", "Dairy & Eggs"), ("greek yogurt", "Dairy & Eggs"),
   ("yogurt", "Dairy & Eggs"), ("butter", "Dairy & Eggs"),
   ("cream", "Dairy & Eggs"), ("sour cream", "Dairy & Eggs"),
   ("bread", "Bakery"), ("tortillas", "Bakery"), ("buns", "Bakery"),
   ("rice", "Pantry"), ("pasta", "Pantry"), ("penne pasta", "Pantry"),
   ("spaghetti", "Pantry"), ("flour", "Pantry"), ("sugar", "Pantry"),
   ("salt", "Pantry"), ("black pepper", "Pantry"), ("pepper", "Pantry"),
   ("olive oil", "Pantry"), ("vegetable oil", "Pantry"),
   ("cooking oil", "Pantry"), ("honey", "Pantry"), ("oats", "Pantry"),
   ("rolled oats", "Pantry"), ("chia seeds", "Pantry"),
   ("soy sauce", "Condiments"), ("ketchup", "Condiments"),
   ("mustard", "Condiments"), ("mayonnaise", "Condiments"),
   ("hot sauce", "Condiments"),
   ("kalamata olives", "Canned Goods"), ("olives", "Canned Goods")]

/-! ### Unit / name normalisation and conversion (`utils.py`) -/

/-- `normalize_unit` from `utils.py`: lower-case, strip, resolve aliases. -/
def normalize_unit (unit : String) : String :=
  let unit_lower := normStr unit
  (UNIT_ALIASES.lookup unit_lower).getD unit_lower

/-- `normalize_ingredient_name` from `utils.py`. -/
def normalize_ingredient_name (name : String) : String := normStr name

/-- `get_ingredient_category` from `utils.py`. -/
def get_ingredient_category (ingredient_name : String) : String :=
  (INGREDIENT_CATEGORIES.lookup (normStr ingredient_name)).getD "Other"

/-- `convert_units` from `utils.py`; `raise ValueError` becomes `Except.error`. -/
def convert_units (quantity : ℚ) (from_unit to_unit : String) : Except String ℚ :=
  let fu := normalize_unit from_unit
  let tu := normalize_unit to_unit
  if fu = tu then .ok quantity
  else
    match VOLUME_TO_ML.lookup fu, VOLUME_TO_ML.lookup tu with
    | some f, some t => .ok (quantity * f / t)
    | _, _ =>
      match WEIGHT_TO_G.lookup fu, WEIGHT_TO_G.lookup tu with
      | some f, some t => .ok (quantity * f / t)
      | _, _ => .error "incompatible unit types"

/-- `can_convert_units` from `utils.py`. -/
def can_convert_units (from_unit to_unit : String) : Bool :=
  let fu := normalize_unit from_unit
  let tu := normalize_unit to_unit
  if fu = tu then true
  else if (VOLUME_TO_ML.lookup fu).isSome && (VOLUME_TO_ML.lookup tu).isSome then true
  else if (WEIGHT_TO_G.lookup fu).isSome && (WEIGHT_TO_G.lookup tu).isSome then true
  else false

/-! ### Idempotence of the normalisation kernel -/

theorem char_toNat_ofNat {m : Nat} (h : Nat.isValidChar m) :
    (Char.ofNat m).toNat = m := by
  rw [Char.ofNat, dif_pos h]
  rfl

theorem toLower_toLower (c : Char) : c.toLower.toLower = c.toLower := by
  by_cases h : c.toNat ≥ 65 ∧ c.toNat ≤ 90
  · have hv : Nat.isValidChar (c.toNat + 32) := Or.inl (by omega)
    have ht : (Char.ofNat (c.toNat + 32)).toNat = c.toNat + 32 := char_toNat_ofNat hv
    have h1 : c.toLower = Char.ofNat (c.toNat + 32) := by
      simp only [Char.toLower]
      rw [if_pos h]
    rw [h1]
    simp only [Char.toLower]
    rw [ht, if_neg (by omega)]
  · have h1 : c.toLower = c := by
      simp only [Char.toLower]
      rw [if_neg h]
    rw [h1, h1]

theorem mem_map_toLower_fixed {l : List Char} {c : Char} (h : c ∈ l.map Char.toLower) :
    c.toLower = c := by
  rcases List.mem_map.1 h with ⟨a, _, rfl⟩
  exact toLower_toLower a

theorem dropWhile_self_of_head {p : α → Bool} {l : List α}
    (h : ∀ x xs, l = x :: xs → p x = false) : List.dropWhile p l = l := by
  cases l with
  | nil => rfl
  | cons x xs => rw [List.dropWhile_cons, h x xs rfl]; simp

theorem head_dropWhile_false {p : α → Bool} {l : List α} {x : α} {xs : List α}
    (h : List.dropWhile p l = x :: xs) : p x = false := by
  induction l with
  | nil => simp at h
  | cons y ys ih =>
    rw [List.dropWhile_cons] at h
    by_cases hy : p y
    · rw [if_pos hy] at h; exact ih h
    · rw [if_neg hy] at h
      cases h
      simpa using hy

theorem dropTrailing_head {p : Char → Bool} {c x : Char} {cs xs : List Char}
    (h : dropTrailing p (c :: cs) = x :: xs) : x = c := by
  rw [dropTrailing] at h
  rcases hr : dropTrailing p cs with _ | ⟨y, ys⟩ <;> rw [hr] at h
  · by_cases hc : p c
    · rw [if_pos hc] at h; cases h
    · rw [if_neg hc] at h; cases h; rfl
  · cases h; rfl

theorem dropTrailing_subset {p : Char → Bool} {l : List Char} {c : Char}
    (h : c ∈ dropTrailing p l) : c ∈ l := by
  induction l with
  | nil => simp [dropTrailing] at h
  | cons x xs ih =>
    rw [dropTrailing] at h
    rcases hr : dropTrailing p xs with _ | ⟨y, ys⟩ <;> rw [hr] at h
    · by_cases hx : p x
      · rw [if_pos hx] at h; simp at h
      · rw [if_neg hx] at h
        simp at h
        simp [h]
    · rcases List.mem_cons.1 h with rfl | h2
      · simp
      · exact List.mem_cons_of_mem _ (ih (hr ▸ h2))

theorem dropTrailing_idem (p : Char → Bool) (l : List Char) :
    dropTrailing p (dropTrailing p l) = dropTrailing p l := by
  induction l with
  | nil => rfl
  | cons x xs ih =>
    rcases hr : dropTrailing p xs with _ | ⟨y, ys⟩
    · by_cases hx : p x
      · simp [dropTrailing, hr, hx]
      · simp [dropTrailing, hr, hx]
    · rw [hr] at ih
      have hcons : dropTrailing p (x :: xs) = x :: y :: ys := by
        rw [dropTrailing, hr]
      rw [hcons, dropTrailing, ih]

/-- The result of a strip pass has no leading `p`-characters if its input had
none, so a second leading-strip is the identity on it. -/
theorem dropWhile_dropTrailing {p : Char → Bool} {l : List Char}
    (h : ∀ x xs, l = x :: xs → p x = false) :
    List.dropWhile p (dropTrailing p l) = dropTrailing p l := by
  apply dropWhile_self_of_head
  intro x xs hx
  cases l with
  | nil => simp [dropTrailing] at hx
  | cons c cs =>
    have hxc : x = c := dropTrailing_head hx
    exact hxc ▸ h c cs rfl

theorem stripList_idem (p : Char → Bool) (l : List Char) :
    dropTrailing p (List.dropWhile p (dropTrailing p (List.dropWhile p l))) =
      dropTrailing p (List.dropWhile p l) := by
  rw [dropWhile_dropTrailing (fun x xs hx => head_dropWhile_false hx)]
  exact dropTrailing_idem p _

theorem pyStrip_idem (s : String) : pyStrip (pyStrip s) = pyStrip s := by
  unfold pyStrip
  exact congrArg String.mk (stripList_idem _ _)

theorem pyStrip_data_subset {s : String} {c : Char} (h : c ∈ (pyStrip s).data) :
    c ∈ s.data := by
  unfold pyStrip at h
  exact List.Sublist.mem (dropTrailing_subset h) (List.dropWhile_sublist _)

theorem map_toLower_of_fixed {l : List Char} (h : ∀ c ∈ l, c.toLower = c) :
    l.map Char.toLower = l := by
  induction l with
  | nil => rfl
  | cons c cs ih =>
    simp only [List.map_cons]
    rw [h c (List.mem_cons_self c cs), ih (fun x hx => h x (List.mem_cons_of_mem c hx))]

theorem pyLower_of_fixed {s : String} (h : ∀ c ∈ s.data, c.toLower = c) :
    pyLower s = s := by
  unfold pyLower
  rw [map_toLower_of_fixed h]

theorem normStr_idem (s : String) : normStr (normStr s) = normStr s := by
  unfold normStr
  have hfix : ∀ c ∈ (pyStrip (pyLower s)).data, c.toLower = c := by
    intro c hc
    have : c ∈ (pyLower s).data := pyStrip_data_subset hc
    exact mem_map_toLower_fixed this
  rw [pyLower_of_fixed hfix, pyStrip_idem]

theorem mem_snd_of_lookup {α β : Type _} [BEq α] {l : List (α × β)} {k : α} {v : β}
    (h : l.lookup k = some v) : v ∈ l.map Prod.snd := by
  induction l with
  | nil => simp [List.lookup] at h
  | cons p rest ih =>
    obtain ⟨k', v'⟩ := p
    rw [List.lookup] at h
    cases hk : k == k'
    · rw [hk] at h
      simp only [] at h
      simp [ih h]
    · rw [hk] at h
      simp only [] at h
      cases h
      simp

theorem mem_fst_of_lookup {β : Type _} {l : List (String × β)} {k : String} {v : β}
    (h : l.lookup k = some v) : k ∈ l.map Prod.fst := by
  induction l with
  | nil => simp [List.lookup] at h
  | cons p rest ih =>
    obtain ⟨k', v'⟩ := p
    rw [List.lookup] at h
    cases hk : k == k'
    · rw [hk] at h
      simp only [] at h
      simp [ih h]
    · simp only [List.map_cons]
      exact (eq_of_beq hk) ▸ List.mem_cons_self _ _

theorem alias_values_normal : ∀ v ∈ UNIT_ALIASES.map Prod.snd, normalize_unit v = v := by
  decide

theorem normalize_unit_idem (u : String) :
    normalize_unit (normalize_unit u) = normalize_unit u := by
  rcases h : UNIT_ALIASES.lookup (normStr u) with _ | v
  · have h1 : normalize_unit u = normStr u := by
      rw [normalize_unit, h]; rfl
    rw [h1, normalize_unit, normStr_idem, h]
    rfl
  · have h1 : normalize_unit u = v := by
      rw [normalize_unit, h]; rfl
    rw [h1]
    exact alias_values_normal v (mem_snd_of_lookup h)

/-! ### Facts about the conversion tables -/

theorem vol_keys_not_weight : ∀ k ∈ VOLUME_TO_ML.map Prod.fst, WEIGHT_TO_G.lookup k = none := by
  decide

theorem weight_keys_not_vol : ∀ k ∈ WEIGHT_TO_G.map Prod.fst, VOLUME_TO_ML.lookup k = none := by
  decide

theorem count_units_opaque :
    ∀ c ∈ COUNT_UNITS,
      normalize_unit c = c ∧ VOLUME_TO_ML.lookup c = none ∧ WEIGHT_TO_G.lookup c = none := by
  decide

theorem weight_of_vol_isSome {k : String} (h : (VOLUME_TO_ML.lookup k).isSome) :
    WEIGHT_TO_G.lookup k = none := by
  rcases ho : VOLUME_TO_ML.lookup k with _ | v
  · rw [ho] at h; simp at h
  · exact vol_keys_not_weight k (mem_fst_of_lookup ho)

theorem vol_of_weight_isSome {k : String} (h : (WEIGHT_TO_G.lookup k).isSome) :
    VOLUME_TO_ML.lookup k = none := by
  rcases ho : WEIGHT_TO_G.lookup k with _ | v
  · rw [ho] at h; simp at h
  · exact weight_keys_not_vol k (mem_fst_of_lookup ho)

theorem vol_values_pos : ∀ v ∈ VOLUME_TO_ML.map Prod.snd, 0 < v := by
  intro v hv
  simp only [VOLUME_TO_ML, List.map_cons, List.map_nil, List.mem_cons,
    List.not_mem_nil, or_false] at hv
  rcases hv with rfl | rfl | rfl | rfl | rfl | rfl | rfl | rfl | rfl | rfl | rfl | rfl |
    rfl | rfl | rfl | rfl | rfl | rfl | rfl | rfl | rfl | rfl | rfl <;> norm_num

theorem weight_values_pos : ∀ v ∈ WEIGHT_TO_G.map Prod.snd, 0 < v := by
  intro v hv
  simp only [WEIGHT_TO_G, List.map_cons, List.map_nil, List.mem_cons,
    List.not_mem_nil, or_false] at hv
  rcases hv with rfl | rfl | rfl | rfl | rfl | rfl | rfl | rfl | rfl | rfl | rfl | rfl <;>
    norm_num

theorem vol_factor_pos {k : String} {f : ℚ} (h : VOLUME_TO_ML.lookup k = some f) : 0 < f :=
  vol_values_pos f (mem_snd_of_lookup h)

theorem weight_factor_pos {k : String} {f : ℚ} (h : WEIGHT_TO_G.lookup k = some f) : 0 < f :=
  weight_values_pos f (mem_snd_of_lookup h)

/-! ### Behaviour of `convert_units` / `can_convert_units` -/

theorem convert_units_same {q : ℚ} {u1 u2 : String}
    (h : normalize_unit u1 = normalize_unit u2) : convert_units q u1 u2 = .ok q := by
  simp only [convert_units]
  rw [if_pos h]

theorem convert_units_vol {q : ℚ} {u1 u2 : String} {f t : ℚ}
    (hne : normalize_unit u1 ≠ normalize_unit u2)
    (h1 : VOLUME_TO_ML.lookup (normalize_unit u1) = some f)
    (h2 : VOLUME_TO_ML.lookup (normalize_unit u2) = some t) :
    convert_units q u1 u2 = .ok (q * f / t) := by
  simp only [convert_units]
  rw [if_neg hne, h1, h2]

theorem convert_units_weight {q : ℚ} {u1 u2 : String} {f t : ℚ}
    (hne : normalize_unit u1 ≠ normalize_unit u2)
    (h1 : WEIGHT_TO_G.lookup (normalize_unit u1) = some f)
    (h2 : WEIGHT_TO_G.lookup (normalize_unit u2) = some t) :
    convert_units q u1 u2 = .ok (q * f / t) := by
  simp only [convert_units]
  rw [if_neg hne]
  have hv1 : VOLUME_TO_ML.lookup (normalize_unit u1) = none :=
    vol_of_weight_isSome (by rw [h1]; rfl)
  rw [hv1, h1, h2]

theorem convert_units_error {q : ℚ} {u1 u2 : String}
    (hne : normalize_unit u1 ≠ normalize_unit u2)
    (hv : ¬((VOLUME_TO_ML.lookup (normalize_unit u1)).isSome ∧
            (VOLUME_TO_ML.lookup (normalize_unit u2)).isSome))
    (hw : ¬((WEIGHT_TO_G.lookup (normalize_unit u1)).isSome ∧
            (WEIGHT_TO_G.lookup (normalize_unit u2)).isSome)) :
    convert_units q u1 u2 = .error "incompatible unit types" := by
  simp only [convert_units]
  rw [if_neg hne]
  rcases hv1 : VOLUME_TO_ML.lookup (normalize_unit u1) with _ | f <;>
    rcases hv2 : VOLUME_TO_ML.lookup (normalize_unit u2) with _ | t <;>
      rcases hw1 : WEIGHT_TO_G.lookup (normalize_unit u1) with _ | g <;>
        rcases hw2 : WEIGHT_TO_G.lookup (normalize_unit u2) with _ | s <;>
          simp only [] <;>
            first
              | rfl
              | (exact absurd ⟨by rw [hv1]; rfl, by rw [hv2]; rfl⟩ hv)
              | (exact absurd ⟨by rw [hw1]; rfl, by rw [hw2]; rfl⟩ hw)

theorem can_convert_units_iff (u1 u2 : String) :
    can_convert_units u1 u2 = true ↔
      (normalize_unit u1 = normalize_unit u2
        ∨ ((VOLUME_TO_ML.lookup (normalize_unit u1)).isSome ∧
           (VOLUME_TO_ML.lookup (normalize_unit u2)).isSome)
        ∨ ((WEIGHT_TO_G.lookup (normalize_unit u1)).isSome ∧
           (WEIGHT_TO_G.lookup (normalize_unit u2)).isSome)) := by
  simp only [can_convert_units]
  by_cases he : normalize_unit u1 = normalize_unit u2
  · simp [he]
  · rw [if_neg he]
    cases h1 : (VOLUME_TO_ML.lookup (normalize_unit u1)).isSome <;>
      cases h2 : (VOLUME_TO_ML.lookup (normalize_unit u2)).isSome <;>
        cases h3 : (WEIGHT_TO_G.lookup (normalize_unit u1)).isSome <;>
          cases h4 : (WEIGHT_TO_G.lookup (normalize_unit u2)).isSome <;>
            simp [he, h1, h2, h3, h4]

theorem can_convert_units_false {u1 u2 : String}
    (he : normalize_unit u1 ≠ normalize_unit u2)
    (hv : ¬((VOLUME_TO_ML.lookup (normalize_unit u1)).isSome ∧
            (VOLUME_TO_ML.lookup (normalize_unit u2)).isSome))
    (hw : ¬((WEIGHT_TO_G.lookup (normalize_unit u1)).isSome ∧
            (WEIGHT_TO_G.lookup (normalize_unit u2)).isSome)) :
    can_convert_units u1 u2 = false := by
  cases hb : can_convert_units u1 u2
  · rfl
  · rcases (can_convert_units_iff u1 u2).1 hb with h | h | h
    exacts [absurd h he, absurd h hv, absurd h hw]

theorem convert_units_ok_of_can {q : ℚ} {u1 u2 : String}
    (h : can_convert_units u1 u2 = true) : ∃ v, convert_units q u1 u2 = .ok v := by
  rcases (can_convert_units_iff u1 u2).1 h with he | ⟨h1, h2⟩ | ⟨h1, h2⟩
  · exact ⟨q, convert_units_same he⟩
  · by_cases he : normalize_unit u1 = normalize_unit u2
    · exact ⟨q, convert_units_same he⟩
    · rcases Option.isSome_iff_exists.1 h1 with ⟨f, hf⟩
      rcases Option.isSome_iff_exists.1 h2 with ⟨t, ht⟩
      exact ⟨q * f / t, convert_units_vol he hf ht⟩
  · by_cases he : normalize_unit u1 = normalize_unit u2
    · exact ⟨q, convert_units_same he⟩
    · rcases Option.isSome_iff_exists.1 h1 with ⟨f, hf⟩
      rcases Option.isSome_iff_exists.1 h2 with ⟨t, ht⟩
      exact ⟨q * f / t, convert_units_weight he hf ht⟩

/-! ### Claim theorems about unit conversion -/

/-- C5: `convert_units` fails with an error exactly when `can_convert_units` is
false, and when the two normalised units lie in the same dimension table it
returns `qty * factor[from] / factor[to]` (via ml for volume, g for weight). -/
theorem claim_C5_convert_error_iff_can_convert : ∀ (q : ℚ) (u1 u2 : String),
    ((∃ e, convert_units q u1 u2 = .error e) ↔ can_convert_units u1 u2 = false)
    ∧ (∀ f t, VOLUME_TO_ML.lookup (normalize_unit u1) = some f →
        VOLUME_TO_ML.lookup (normalize_unit u2) = some t →
        convert_units q u1 u2 = .ok (q * f / t))
    ∧ (∀ f t, WEIGHT_TO_G.lookup (normalize_unit u1) = some f →
        WEIGHT_TO_G.lookup (normalize_unit u2) = some t →
        convert_units q u1 u2 = .ok (q * f / t)) := by
  intro q u1 u2
  refine ⟨⟨?_, ?_⟩, ?_, ?_⟩
  · rintro ⟨e, he⟩
    cases hb : can_convert_units u1 u2
    · rfl
    · rcases convert_units_ok_of_can (q := q) hb with ⟨v, hv⟩
      rw [he] at hv
      cases hv
  · intro hb
    by_cases he : normalize_unit u1 = normalize_unit u2
    · have : can_convert_units u1 u2 = true := (can_convert_units_iff u1 u2).2 (Or.inl he)
      rw [this] at hb; cases hb
    · refine ⟨"incompatible unit types", convert_units_error he ?_ ?_⟩
      · intro hc
        have : can_convert_units u1 u2 = true :=
          (can_convert_units_iff u1 u2).2 (Or.inr (Or.inl hc))
        rw [this] at hb; cases hb
      · intro hc
        have : can_convert_units u1 u2 = true :=
          (can_convert_units_iff u1 u2).2 (Or.inr (Or.inr hc))
        rw [this] at hb; cases hb
  · intro f t hf ht
    by_cases he : normalize_unit u1 = normalize_unit u2
    · rw [he] at hf
      rw [hf] at ht
      cases ht
      have hfpos := vol_factor_pos hf
      rw [convert_units_same he]
      congr 1
      field_simp
    · exact convert_units_vol he hf ht
  · intro f t hf ht
    by_cases he : normalize_unit u1 = normalize_unit u2
    · rw [he] at hf
      rw [hf] at ht
      cases ht
      have hfpos := weight_factor_pos hf
      rw [convert_units_same he]
      congr 1
      field_simp
    · exact convert_units_weight he hf ht

/-- C5 witness: 8 oz → lb uses the weight table, 8 * 28.3495 / 453.592. -/
theorem claim_C5_convert_error_iff_can_convert_witness :
    convert_units 8 "oz" "lb" = .ok (8 * 28.3495 / 453.592) := by
  have h1 : WEIGHT_TO_G.lookup (normalize_unit "oz") = some 28.3495 := by
    rw [show normalize_unit "oz" = "oz" from by decide]
    simp +decide [WEIGHT_TO_G, List.lookup]
  have h2 : WEIGHT_TO_G.lookup (normalize_unit "lb") = some 453.592 := by
    rw [show normalize_unit "lb" = "lb" from by decide]
    simp +decide [WEIGHT_TO_G, List.lookup]
  exact (claim_C5_convert_error_iff_can_convert 8 "oz" "lb").2.2 28.3495 453.592 h1 h2

/-- C6: `can_convert_units` is true iff the units agree after normalisation or
both are volume units or both are weight units; count units are never
convertible to a differently-normalised unit; volume never converts to
weight. -/
theorem claim_C6_can_convert_characterisation :
    (∀ u1 u2, can_convert_units u1 u2 = true ↔
      (normalize_unit u1 = normalize_unit u2
        ∨ ((VOLUME_TO_ML.lookup (normalize_unit u1)).isSome ∧
           (VOLUME_TO_ML.lookup (normalize_unit u2)).isSome)
        ∨ ((WEIGHT_TO_G.lookup (normalize_unit u1)).isSome ∧
           (WEIGHT_TO_G.lookup (normalize_unit u2)).isSome)))
    ∧ (∀ c ∈ COUNT_UNITS, ∀ u, normalize_unit c ≠ normalize_unit u →
        can_convert_units c u = false)
    ∧ (∀ u1 u2, (VOLUME_TO_ML.lookup (normalize_unit u1)).isSome →
        (WEIGHT_TO_G.lookup (normalize_unit u2)).isSome →
        can_convert_units u1 u2 = false) := by
  refine ⟨can_convert_units_iff, ?_, ?_⟩
  · intro c hc u hne
    obtain ⟨hnorm, hvol, hwt⟩ := count_units_opaque c hc
    refine can_convert_units_false hne ?_ ?_
    · rintro ⟨h1, _⟩
      rw [hnorm, hvol] at h1
      cases h1
    · rintro ⟨h1, _⟩
      rw [hnorm, hwt] at h1
      cases h1
  · intro u1 u2 h1 h2
    have hne : normalize_unit u1 ≠ normalize_unit u2 := by
      intro he
      rw [he] at h1
      rw [vol_of_weight_isSome h2] at h1
      cases h1
    refine can_convert_units_false hne ?_ ?_
    · rintro ⟨_, hc⟩
      rw [vol_of_weight_isSome h2] at hc
      cases hc
    · rintro ⟨hc, _⟩
      rw [weight_of_vol_isSome h1] at hc
      cases hc

/-- C6 witness: "piece" and "whole" are count units and are not convertible;
"cup" (volume) does not convert to "g" (weight). -/
theorem claim_C6_can_convert_characterisation_witness :
    can_convert_units "piece" "whole" = false ∧ can_convert_units "cup" "g" = false := by
  constructor
  · exact claim_C6_can_convert_characterisation.2.1 "piece" (by decide) "whole" (by decide)
  · refine claim_C6_can_convert_characterisation.2.2 "cup" "g" ?_ ?_ <;> decide

/-- C10: when the two unit strings normalise to the same string, `convert_units`
returns the quantity unchanged and never errors, whatever the units are. -/
theorem claim_C10_equal_units_identity : ∀ (q : ℚ) (u1 u2 : String),
    normalize_unit u1 = normalize_unit u2 → convert_units q u1 u2 = .ok q := by
  intro q u1 u2 h
  exact convert_units_same h

/-- C10 witness: " Piece" and "piece" normalise identically (also for a unit
unknown to every conversion table), and the quantity passes through. -/
theorem claim_C10_equal_units_identity_witness :
    convert_units 3 " Piece" "piece" = .ok 3 ∧ convert_units 7 "Floop" "floop" = .ok 7 :=
  ⟨claim_C10_equal_units_identity 3 " Piece" "piece" (by decide),
   claim_C10_equal_units_identity 7 "Floop" "floop" (by decide)⟩

/-! ### Data model (`models.py`) -/

/-- One scaled ingredient entry, the dicts collected in `generate_grocery_list`. -/
structure Entry where
  name : String
  quantity : ℚ
  unit : String
deriving Repr, DecidableEq

/-- `GroceryItem` from `models.py`. -/
structure GroceryItem where
  ingredient_name : String
  quantity : ℚ
  unit : String
  category : String
deriving Repr, DecidableEq

/-- `PantryItem` from `models.py` (the fields the deduction engine reads). -/
structure PantryRow where
  ingredient_name : String
  quantity : ℚ
  unit : String
deriving Repr, DecidableEq

/-! ### Insertion-ordered dictionaries

Python dicts iterate in key-insertion order; `grouped[k].append(x)` /
`by_unit[u] += q` insert the key at the end on first touch and update in
place afterwards.  `upsert` models exactly that. -/

def upsert {α : Type _} (f : α → α) (d : α) (k : String) :
    List (String × α) → List (String × α)
  | [] => [(k, d)]
  | (k', v) :: rest => if k' = k then (k', f v) :: rest else (k', v) :: upsert f d k rest

theorem upsert_lookup_self {α : Type _} (f : α → α) (d : α) (k : String)
    (l : List (String × α)) :
    (upsert f d k l).lookup k = some (((l.lookup k).map f).getD d) := by
  induction l with
  | nil => simp [upsert, List.lookup]
  | cons p rest ih =>
    obtain ⟨k', v'⟩ := p
    by_cases hk : k' = k
    · subst hk
      simp [upsert, List.lookup]
    · rw [upsert, if_neg hk]
      rw [List.lookup, List.lookup]
      have hb : (k == k') = false := by
        simp [BEq.beq]
        exact fun he => hk he.symm
      rw [hb]
      simpa using ih

theorem upsert_lookup_other {α : Type _} (f : α → α) (d : α) (k k2 : String)
    (l : List (String × α)) (hne : k2 ≠ k) :
    (upsert f d k l).lookup k2 = l.lookup k2 := by
  induction l with
  | nil =>
    have hb : (k2 == k) = false := by
      simp
      exact hne
    simp [upsert, List.lookup, hb]
  | cons p rest ih =>
    obtain ⟨k', v'⟩ := p
    by_cases hk : k' = k
    · subst hk
      rw [upsert, if_pos rfl]
      rw [List.lookup, List.lookup]
      have hb : (k2 == k') = false := by
        simp
        exact hne
      rw [hb]
    · rw [upsert, if_neg hk]
      rw [List.lookup, List.lookup]
      cases hb : k2 == k'
      · simpa using ih
      · rfl

theorem upsert_keys {α : Type _} (f : α → α) (d : α) (k : String)
    (l : List (String × α)) :
    (upsert f d k l).map Prod.fst =
      if k ∈ l.map Prod.fst then l.map Prod.fst else l.map Prod.fst ++ [k] := by
  induction l with
  | nil => simp [upsert]
  | cons p rest ih =>
    obtain ⟨k', v'⟩ := p
    by_cases hk : k' = k
    · subst hk
      simp [upsert]
    · rw [upsert, if_neg hk]
      simp only [List.map_cons]
      rw [ih]
      by_cases hmem : k ∈ rest.map Prod.fst
      · rw [if_pos hmem, if_pos (List.mem_cons_of_mem _ hmem)]
      · rw [if_neg hmem, if_neg (by
          rw [List.mem_cons]
          rintro (h | h)
          · exact hk h.symm
          · exact hmem h)]
        simp

theorem upsert_keys_nodup {α : Type _} (f : α → α) (d : α) (k : String)
    {l : List (String × α)} (h : (l.map Prod.fst).Nodup) :
    ((upsert f d k l).map Prod.fst).Nodup := by
  rw [upsert_keys]
  by_cases hmem : k ∈ l.map Prod.fst
  · rwa [if_pos hmem]
  · rw [if_neg hmem]
    simp [List.nodup_append, h, hmem]

/-! ### `consolidate_ingredients` (`grocery_generator.py`) -/

/-- The `grouped` defaultdict: group entries by normalised ingredient name,
preserving both key insertion order and per-key entry order. -/
def groupByName (ingredients : List Entry) : List (String × List Entry) :=
  ingredients.foldl
    (fun acc ing => upsert (· ++ [ing]) [ing] (normalize_ingredient_name ing.name) acc) []

/-- The `by_unit` defaultdict of one name group: sum quantities per
normalised unit, keys in first-encounter order. -/
def buildByUnit (ing_list : List Entry) : List (String × ℚ) :=
  ing_list.foldl
    (fun acc ing => upsert (· + ing.quantity) ing.quantity (normalize_unit ing.unit) acc) []

/-- The folding loop over `units[1:]`: every unit convertible to the base is
converted, added to the accumulator and deleted; the others stay in order. -/
def foldStep (base : String) : List (String × ℚ) → ℚ → ℚ × List (String × ℚ)
  | [], acc => (acc, [])
  | (u, q) :: rest, acc =>
    if can_convert_units u base then
      match convert_units q u base with
      | .ok v => foldStep base rest (acc + v)
      | .error _ => ((foldStep base rest acc).1, (u, q) :: (foldStep base rest acc).2)
    else ((foldStep base rest acc).1, (u, q) :: (foldStep base rest acc).2)

/-- Consolidation of one name group (the body of the `for normalized_name,
ing_list in grouped.items()` loop). -/
def consolidateGroup (normalized_name : String) (ing_list : List Entry) : List GroceryItem :=
  match ing_list with
  | [] => []
  | first :: _ =>
    let category := get_ingredient_category normalized_name
    let by_unit := buildByUnit ing_list
    let folded :=
      if 1 < by_unit.length then
        match by_unit with
        | [] => []
        | (base, q0) :: rest => (base, (foldStep base rest q0).1) :: (foldStep base rest q0).2
      else by_unit
    folded.filterMap (fun p =>
      if 0 < p.2 then some ⟨first.name, p.2, p.1, category⟩ else none)

/-- `consolidate_ingredients` from `grocery_generator.py`. -/
def consolidate_ingredients (ingredients : List Entry) : List GroceryItem :=
  (groupByName ingredients).flatMap (fun g => consolidateGroup g.1 g.2)

/-! ### Generic facts about defaultdict-style folds -/

theorem upsert_forall {α : Type _} {P : String × α → Prop} {f : α → α} {d : α} {k : String}
    {l : List (String × α)} (hl : ∀ p ∈ l, P p)
    (hd : P (k, d)) (hf : ∀ v, P (k, v) → P (k, f v)) :
    ∀ p ∈ upsert f d k l, P p := by
  induction l with
  | nil =>
    intro p hp
    simp [upsert] at hp
    exact hp ▸ hd
  | cons q rest ih =>
    obtain ⟨k', v'⟩ := q
    intro p hp
    by_cases hk : k' = k
    · subst hk
      rw [upsert, if_pos rfl] at hp
      rcases List.mem_cons.1 hp with rfl | hp2
      · exact hf v' (hl _ (List.mem_cons_self _ _))
      · exact hl _ (List.mem_cons_of_mem _ hp2)
    · rw [upsert, if_neg hk] at hp
      rcases List.mem_cons.1 hp with rfl | hp2
      · exact hl _ (List.mem_cons_self _ _)
      · exact ih (fun p h => hl p (List.mem_cons_of_mem _ h)) p hp2

theorem dictFold_forall {ι : Type _} {α : Type _} {P : String × α → Prop}
    (F : ι → α → α) (D : ι → α) (K : ι → String)
    {l : List ι} {acc : List (String × α)}
    (hacc : ∀ p ∈ acc, P p)
    (hD : ∀ e ∈ l, P (K e, D e))
    (hF : ∀ e ∈ l, ∀ v, P (K e, v) → P (K e, F e v)) :
    ∀ p ∈ l.foldl (fun a e => upsert (F e) (D e) (K e) a) acc, P p := by
  induction l generalizing acc with
  | nil => exact hacc
  | cons e rest ih =>
    simp only [List.foldl_cons]
    exact ih
      (upsert_forall hacc (hD e (List.mem_cons_self _ _))
        (hF e (List.mem_cons_self _ _)))
      (fun x hx => hD x (List.mem_cons_of_mem _ hx))
      (fun x hx => hF x (List.mem_cons_of_mem _ hx))

theorem dictFold_keys_nodup {ι : Type _} {α : Type _}
    (F : ι → α → α) (D : ι → α) (K : ι → String)
    {l : List ι} {acc : List (String × α)}
    (hacc : (acc.map Prod.fst).Nodup) :
    ((l.foldl (fun a e => upsert (F e) (D e) (K e) a) acc).map Prod.fst).Nodup := by
  induction l generalizing acc with
  | nil => exact hacc
  | cons e rest ih =>
    simp only [List.foldl_cons]
    exact ih (upsert_keys_nodup _ _ _ hacc)

theorem dictFold_lookup {ι : Type _} {α : Type _}
    (F : ι → α → α) (D : ι → α) (K : ι → String)
    (l : List ι) (acc : List (String × α)) (k : String) :
    (l.foldl (fun a e => upsert (F e) (D e) (K e) a) acc).lookup k =
      match acc.lookup k with
      | some g => some ((l.filter (fun e => K e = k)).foldl (fun g e => F e g) g)
      | none =>
        match l.filter (fun e => K e = k) with
        | [] => none
        | e :: fl => some (fl.foldl (fun g e => F e g) (D e)) := by
  induction l generalizing acc with
  | nil =>
    rcases h : acc.lookup k with _ | g <;> simp [h]
  | cons e rest ih =>
    simp only [List.foldl_cons]
    rw [ih]
    by_cases hk : K e = k
    · subst hk
      rw [upsert_lookup_self]
      rcases h : acc.lookup (K e) with _ | g
      · simp [h, List.filter_cons]
      · simp [h, List.filter_cons]
    · rw [upsert_lookup_other _ _ _ _ _ (fun he => hk he.symm)]
      rcases h : acc.lookup k with _ | g <;>
        simp [h, List.filter_cons, hk]

theorem mem_dict_lookup {α : Type _} {l : List (String × α)} {k : String} {v : α}
    (hnd : (l.map Prod.fst).Nodup) (h : (k, v) ∈ l) : l.lookup k = some v := by
  induction l with
  | nil => simp at h
  | cons p rest ih =>
    obtain ⟨k', v'⟩ := p
    rw [List.map_cons, List.nodup_cons] at hnd
    rcases List.mem_cons.1 h with he | hmem
    · cases he
      simp [List.lookup]
    · have hk : k ≠ k' := by
        rintro rfl
        exact hnd.1 (List.mem_map.2 ⟨(k, v), hmem, rfl⟩)
      rw [List.lookup]
      have hb : (k == k') = false := by
        simp
        exact hk
      rw [hb]
      exact ih hnd.2 hmem

theorem lookup_mem {α : Type _} {l : List (String × α)} {k : String} {v : α}
    (h : l.lookup k = some v) : (k, v) ∈ l := by
  induction l with
  | nil => simp [List.lookup] at h
  | cons p rest ih =>
    obtain ⟨k', v'⟩ := p
    rw [List.lookup] at h
    cases hk : k == k'
    · rw [hk] at h
      simp only [] at h
      exact List.mem_cons_of_mem _ (ih h)
    · rw [hk] at h
      simp only [] at h
      cases h
      exact (eq_of_beq hk) ▸ List.mem_cons_self _ _

/-! ### Characterisation of `groupByName` and `buildByUnit` -/

theorem foldl_append_singleton {α : Type _} (fl : List α) (init : List α) :
    fl.foldl (fun g e => g ++ [e]) init = init ++ fl := by
  induction fl generalizing init with
  | nil => simp
  | cons e rest ih =>
    simp only [List.foldl_cons]
    rw [ih]
    simp

theorem foldl_add_quantities (fl : List Entry) (init : ℚ) :
    fl.foldl (fun s e => s + e.quantity) init = init + (fl.map Entry.quantity).sum := by
  induction fl generalizing init with
  | nil => simp
  | cons e rest ih =>
    simp only [List.foldl_cons, List.map_cons, List.sum_cons]
    rw [ih]
    ring

theorem groupByName_lookup (l : List Entry) (k : String) :
    (groupByName l).lookup k =
      match l.filter (fun e => normalize_ingredient_name e.name = k) with
      | [] => none
      | fl => some fl := by
  have h := dictFold_lookup (fun (e : Entry) g => g ++ [e]) (fun e => [e])
    (fun e => normalize_ingredient_name e.name) l [] k
  rw [show groupByName l =
      l.foldl (fun a e => upsert (fun g => g ++ [e]) [e] (normalize_ingredient_name e.name) a)
        [] from rfl]
  rw [h]
  simp only [List.lookup]
  rcases hf : l.filter (fun e => normalize_ingredient_name e.name = k) with _ | ⟨e, fl⟩ <;>
    rw [hf] <;> simp [foldl_append_singleton]

theorem buildByUnit_lookup (g : List Entry) (u : String) :
    (buildByUnit g).lookup u =
      match g.filter (fun e => normalize_unit e.unit = u) with
      | [] => none
      | e :: fl => some (e.quantity + (fl.map Entry.quantity).sum) := by
  have h := dictFold_lookup (fun (e : Entry) (s : ℚ) => s + e.quantity) (fun e => e.quantity)
    (fun e => normalize_unit e.unit) g [] u
  rw [show buildByUnit g =
      g.foldl (fun a e => upsert (fun s => s + e.quantity) e.quantity (normalize_unit e.unit) a)
        [] from rfl]
  rw [h]
  simp only [List.lookup]
  rcases hf : g.filter (fun e => normalize_unit e.unit = u) with _ | ⟨e, fl⟩ <;>
    rw [hf] <;> simp [foldl_add_quantities]

theorem groupByName_keys_nodup (l : List Entry) :
    ((groupByName l).map Prod.fst).Nodup :=
  dictFold_keys_nodup (fun (e : Entry) g => g ++ [e]) (fun e => [e])
    (fun e => normalize_ingredient_name e.name) (by simp)

theorem buildByUnit_keys_nodup (g : List Entry) :
    ((buildByUnit g).map Prod.fst).Nodup :=
  dictFold_keys_nodup (fun (e : Entry) (s : ℚ) => s + e.quantity) (fun e => e.quantity)
    (fun e => normalize_unit e.unit) (by simp)

theorem groupByName_groups {l : List Entry} {p : String × List Entry}
    (h : p ∈ groupByName l) :
    p.2 = l.filter (fun e => normalize_ingredient_name e.name = p.1) := by
  obtain ⟨k, g⟩ := p
  have hl : (groupByName l).lookup k = some g :=
    mem_dict_lookup (groupByName_keys_nodup l) h
  rw [groupByName_lookup] at hl
  rcases hf : l.filter (fun e => normalize_ingredient_name e.name = k) with _ | ⟨e, fl⟩ <;>
    rw [hf] at hl
  · cases hl
  · cases hl
    exact hf.symm

theorem buildByUnit_keys_normal (g : List Entry) :
    ∀ p ∈ buildByUnit g, normalize_unit p.1 = p.1 := by
  show ∀ p ∈ g.foldl
      (fun a e => upsert (fun s => s + e.quantity) e.quantity (normalize_unit e.unit) a) [],
    normalize_unit p.1 = p.1
  exact dictFold_forall _ _ _ (by simp) (fun e _ => normalize_unit_idem e.unit)
    (fun e _ v hv => hv)

theorem buildByUnit_pos {g : List Entry} (hpos : ∀ e ∈ g, 0 < e.quantity) :
    ∀ p ∈ buildByUnit g, 0 < p.2 := by
  show ∀ p ∈ g.foldl
      (fun a e => upsert (fun s => s + e.quantity) e.quantity (normalize_unit e.unit) a) [],
    0 < p.2
  exact dictFold_forall _ _ _ (by simp) (fun e he => hpos e he)
    (fun e he v hv => add_pos hv (hpos e he))

/-! ### Dimension measures

To state order-independence up to unit conversion we measure every
(unit, quantity) pair in base units: millilitres for volume units, grams
for weight units, and the raw quantity for each count unit separately. -/

/-- Millilitre measure of a quantity in a given (normalised) unit. -/
def volContrib (u : String) (q : ℚ) : ℚ :=
  match VOLUME_TO_ML.lookup u with
  | some f => q * f
  | none => 0

/-- Gram measure of a quantity in a given (normalised) unit. -/
def wtContrib (u : String) (q : ℚ) : ℚ :=
  match WEIGHT_TO_G.lookup u with
  | some f => q * f
  | none => 0

/-- Count measure for a fixed count unit `u0` (a unit in neither table). -/
def cntContrib (u0 : String) (u : String) (q : ℚ) : ℚ :=
  if u = u0 ∧ VOLUME_TO_ML.lookup u = none ∧ WEIGHT_TO_G.lookup u = none then q else 0

theorem volContrib_add (u : String) (a b : ℚ) :
    volContrib u (a + b) = volContrib u a + volContrib u b := by
  unfold volContrib
  rcases VOLUME_TO_ML.lookup u with _ | f <;> simp <;> ring

theorem wtContrib_add (u : String) (a b : ℚ) :
    wtContrib u (a + b) = wtContrib u a + wtContrib u b := by
  unfold wtContrib
  rcases WEIGHT_TO_G.lookup u with _ | f <;> simp <;> ring

theorem cntContrib_add (u0 u : String) (a b : ℚ) :
    cntContrib u0 u (a + b) = cntContrib u0 u a + cntContrib u0 u b := by
  unfold cntContrib
  split <;> simp

/-- Total measure of an ordered `by_unit` dictionary. -/
def dictTotal (M : String → ℚ → ℚ) (d : List (String × ℚ)) : ℚ :=
  (d.map (fun p => M p.1 p.2)).sum

theorem dictTotal_upsert (M : String → ℚ → ℚ)
    (hM : ∀ u a b, M u (a + b) = M u a + M u b)
    (q : ℚ) (u : String) (acc : List (String × ℚ)) :
    dictTotal M (upsert (· + q) q u acc) = dictTotal M acc + M u q := by
  induction acc with
  | nil => simp [upsert, dictTotal]
  | cons p rest ih =>
    obtain ⟨k', v'⟩ := p
    by_cases hk : k' = u
    · subst hk
      rw [upsert, if_pos rfl]
      simp only [dictTotal, List.map_cons, List.sum_cons]
      rw [hM]
      ring
    · rw [upsert, if_neg hk]
      simp only [dictTotal, List.map_cons, List.sum_cons] at *
      rw [ih]
      ring

theorem dictTotal_buildByUnit (M : String → ℚ → ℚ)
    (hM : ∀ u a b, M u (a + b) = M u a + M u b) (g : List Entry) :
    dictTotal M (buildByUnit g) =
      (g.map (fun e => M (normalize_unit e.unit) e.quantity)).sum := by
  suffices h : ∀ acc, dictTotal M
      (g.foldl (fun a e => upsert (· + e.quantity) e.quantity (normalize_unit e.unit) a) acc) =
      dictTotal M acc + (g.map (fun e => M (normalize_unit e.unit) e.quantity)).sum by
    have h2 := h []
    simpa [dictTotal] using h2
  induction g with
  | nil => simp
  | cons e rest ih =>
    intro acc
    simp only [List.foldl_cons, List.map_cons, List.sum_cons]
    rw [ih]
    rw [dictTotal_upsert M hM]
    ring

/-! ### What `convert_units` can return -/

theorem convert_units_ok_cases {q v : ℚ} {u1 u2 : String}
    (h : convert_units q u1 u2 = .ok v) :
    (normalize_unit u1 = normalize_unit u2 ∧ v = q)
    ∨ (∃ f t, normalize_unit u1 ≠ normalize_unit u2 ∧
        VOLUME_TO_ML.lookup (normalize_unit u1) = some f ∧
        VOLUME_TO_ML.lookup (normalize_unit u2) = some t ∧ v = q * f / t)
    ∨ (∃ f t, normalize_unit u1 ≠ normalize_unit u2 ∧
        WEIGHT_TO_G.lookup (normalize_unit u1) = some f ∧
        WEIGHT_TO_G.lookup (normalize_unit u2) = some t ∧ v = q * f / t) := by
  have hc : can_convert_units u1 u2 = true := by
    cases hb : can_convert_units u1 u2
    · have hn := can_convert_units_iff u1 u2
      rw [hb] at hn
      have hno : ¬(normalize_unit u1 = normalize_unit u2
          ∨ ((VOLUME_TO_ML.lookup (normalize_unit u1)).isSome ∧
             (VOLUME_TO_ML.lookup (normalize_unit u2)).isSome)
          ∨ ((WEIGHT_TO_G.lookup (normalize_unit u1)).isSome ∧
             (WEIGHT_TO_G.lookup (normalize_unit u2)).isSome)) := by
        intro hd
        cases hn.2 hd
      rcases not_or.1 hno with ⟨he, h2⟩
      rcases not_or.1 h2 with ⟨hv, hw⟩
      rw [convert_units_error he hv hw] at h
      cases h
    · rfl
  rcases (can_convert_units_iff u1 u2).1 hc with he | ⟨h1, h2⟩ | ⟨h1, h2⟩
  · rw [convert_units_same he] at h
    cases h
    exact Or.inl ⟨he, rfl⟩
  · by_cases he : normalize_unit u1 = normalize_unit u2
    · rw [convert_units_same he] at h
      cases h
      exact Or.inl ⟨he, rfl⟩
    · rcases Option.isSome_iff_exists.1 h1 with ⟨f, hf⟩
      rcases Option.isSome_iff_exists.1 h2 with ⟨t, ht⟩
      rw [convert_units_vol he hf ht] at h
      cases h
      exact Or.inr (Or.inl ⟨f, t, he, hf, ht, rfl⟩)
  · by_cases he : normalize_unit u1 = normalize_unit u2
    · rw [convert_units_same he] at h
      cases h
      exact Or.inl ⟨he, rfl⟩
    · rcases Option.isSome_iff_exists.1 h1 with ⟨f, hf⟩
      rcases Option.isSome_iff_exists.1 h2 with ⟨t, ht⟩
      rw [convert_units_weight he hf ht] at h
      cases h
      exact Or.inr (Or.inr ⟨f, t, he, hf, ht, rfl⟩)

theorem convert_units_pos {q v : ℚ} {u1 u2 : String} (hq : 0 < q)
    (h : convert_units q u1 u2 = .ok v) : 0 < v := by
  rcases convert_units_ok_cases h with ⟨_, rfl⟩ | ⟨f, t, _, h1, h2, rfl⟩ | ⟨f, t, _, h1, h2, rfl⟩
  · exact hq
  · exact div_pos (mul_pos hq (vol_factor_pos h1)) (vol_factor_pos h2)
  · exact div_pos (mul_pos hq (weight_factor_pos h1)) (weight_factor_pos h2)

/-! ### Measure preservation through unit folding -/

theorem volContrib_convert {q v : ℚ} {u b : String}
    (hu : normalize_unit u = u) (hb : normalize_unit b = b) (hne : u ≠ b)
    (h : convert_units q u b = .ok v) : volContrib b v = volContrib u q := by
  rcases convert_units_ok_cases h with ⟨he, rfl⟩ | ⟨f, t, hne2, h1, h2, rfl⟩ |
    ⟨f, t, hne2, h1, h2, rfl⟩
  · rw [hu, hb] at he
    exact absurd he hne
  · rw [hu] at h1
    rw [hb] at h2
    unfold volContrib
    rw [h1, h2]
    have ht := vol_factor_pos h2
    field_simp
  · rw [hu] at h1
    rw [hb] at h2
    unfold volContrib
    rw [vol_of_weight_isSome (by rw [h2]; rfl), vol_of_weight_isSome (by rw [h1]; rfl)]

theorem wtContrib_convert {q v : ℚ} {u b : String}
    (hu : normalize_unit u = u) (hb : normalize_unit b = b) (hne : u ≠ b)
    (h : convert_units q u b = .ok v) : wtContrib b v = wtContrib u q := by
  rcases convert_units_ok_cases h with ⟨he, rfl⟩ | ⟨f, t, hne2, h1, h2, rfl⟩ |
    ⟨f, t, hne2, h1, h2, rfl⟩
  · rw [hu, hb] at he
    exact absurd he hne
  · rw [hu] at h1
    rw [hb] at h2
    unfold wtContrib
    rw [weight_of_vol_isSome (by rw [h2]; rfl), weight_of_vol_isSome (by rw [h1]; rfl)]
  · rw [hu] at h1
    rw [hb] at h2
    unfold wtContrib
    rw [h1, h2]
    have ht := weight_factor_pos h2
    field_simp

theorem cntContrib_convert (u0 : String) {q v : ℚ} {u b : String}
    (hu : normalize_unit u = u) (hb : normalize_unit b = b) (hne : u ≠ b)
    (h : convert_units q u b = .ok v) : cntContrib u0 b v = cntContrib u0 u q := by
  rcases convert_units_ok_cases h with ⟨he, rfl⟩ | ⟨f, t, hne2, h1, h2, rfl⟩ |
    ⟨f, t, hne2, h1, h2, rfl⟩
  · rw [hu, hb] at he
    exact absurd he hne
  · rw [hu] at h1
    rw [hb] at h2
    unfold cntContrib
    rw [if_neg (by
        rintro ⟨_, hn, _⟩
        rw [h2] at hn
        cases hn),
      if_neg (by
        rintro ⟨_, hn, _⟩
        rw [h1] at hn
        cases hn)]
  · rw [hu] at h1
    rw [hb] at h2
    unfold cntContrib
    rw [if_neg (by
        rintro ⟨_, _, hn⟩
        rw [h2] at hn
        cases hn),
      if_neg (by
        rintro ⟨_, _, hn⟩
        rw [h1] at hn
        cases hn)]

/-! ### The folding loop preserves measures and positivity -/

theorem foldStep_cons_ok {b u : String} {q v acc : ℚ} {rest : List (String × ℚ)}
    (hc : can_convert_units u b = true) (hok : convert_units q u b = .ok v) :
    foldStep b ((u, q) :: rest) acc = foldStep b rest (acc + v) := by
  simp [foldStep, hc, hok]

theorem foldStep_cons_skip {b u : String} {q acc : ℚ} {rest : List (String × ℚ)}
    (hc : can_convert_units u b = false) :
    foldStep b ((u, q) :: rest) acc =
      ((foldStep b rest acc).1, (u, q) :: (foldStep b rest acc).2) := by
  simp [foldStep, hc]

theorem foldStep_total (M : String → ℚ → ℚ)
    (hM : ∀ u a b, M u (a + b) = M u a + M u b)
    (hconv : ∀ (u : String) (q v : ℚ), u ≠ b → normalize_unit u = u →
      normalize_unit b = b → convert_units q u b = .ok v → M b v = M u q)
    (hb : normalize_unit b = b)
    (rest : List (String × ℚ)) (hkeys : ∀ p ∈ rest, normalize_unit p.1 = p.1 ∧ p.1 ≠ b)
    (acc : ℚ) :
    M b (foldStep b rest acc).1 + dictTotal M (foldStep b rest acc).2
      = M b acc + dictTotal M rest := by
  induction rest generalizing acc with
  | nil => simp [foldStep, dictTotal]
  | cons p rest2 ih =>
    obtain ⟨u, q⟩ := p
    obtain ⟨hu, hub⟩ := hkeys (u, q) (List.mem_cons_self _ _)
    have hkeys2 : ∀ p ∈ rest2, normalize_unit p.1 = p.1 ∧ p.1 ≠ b :=
      fun p hp => hkeys p (List.mem_cons_of_mem _ hp)
    cases hc : can_convert_units u b
    · rw [foldStep_cons_skip hc]
      simp only [dictTotal, List.map_cons, List.sum_cons]
      have := ih hkeys2 acc
      simp only [dictTotal] at this
      rw [← add_assoc, add_comm (M b (foldStep b rest2 acc).1) (M u q), add_assoc, this]
      ring
    · rcases convert_units_ok_of_can (q := q) hc with ⟨v, hv⟩
      rw [foldStep_cons_ok hc hv]
      rw [ih hkeys2 (acc + v), hM b acc v, hconv u q v hub hu hb hv]
      simp only [dictTotal, List.map_cons, List.sum_cons]
      ring

theorem foldStep_pos {b : String} {rest : List (String × ℚ)} {acc : ℚ}
    (hrest : ∀ p ∈ rest, 0 < p.2) (hacc : 0 < acc) :
    0 < (foldStep b rest acc).1 ∧ ∀ p ∈ (foldStep b rest acc).2, 0 < p.2 := by
  induction rest generalizing acc with
  | nil => exact ⟨hacc, by simp [foldStep]⟩
  | cons p rest2 ih =>
    obtain ⟨u, q⟩ := p
    have hq : 0 < q := hrest (u, q) (List.mem_cons_self _ _)
    have hrest2 : ∀ p ∈ rest2, 0 < p.2 :=
      fun p hp => hrest p (List.mem_cons_of_mem _ hp)
    cases hc : can_convert_units u b
    · rw [foldStep_cons_skip hc]
      refine ⟨(ih hrest2 hacc).1, ?_⟩
      intro p hp
      rcases List.mem_cons.1 hp with rfl | hp2
      · exact hq
      · exact (ih hrest2 hacc).2 p hp2
    · rcases convert_units_ok_of_can (q := q) hc with ⟨v, hv⟩
      rw [foldStep_cons_ok hc hv]
      exact ih hrest2 (add_pos hacc (convert_units_pos hq hv))

/-! ### Conservation through one name group -/

theorem filterMap_pos_map (n c : String) {d : List (String × ℚ)}
    (hd : ∀ p ∈ d, 0 < p.2) :
    (d.filterMap (fun p =>
      if 0 < p.2 then some (GroceryItem.mk n p.2 p.1 c) else none))
      = d.map (fun p => GroceryItem.mk n p.2 p.1 c) := by
  induction d with
  | nil => rfl
  | cons p rest ih =>
    rw [List.filterMap_cons, List.map_cons]
    rw [if_pos (hd p (List.mem_cons_self _ _))]
    rw [ih (fun x hx => hd x (List.mem_cons_of_mem _ hx))]

/-- Total measure of a grocery item list, ignoring names. -/
def itemsTotal (M : String → ℚ → ℚ) (items : List GroceryItem) : ℚ :=
  (items.map (fun it => M it.unit it.quantity)).sum

theorem itemsTotal_map (M : String → ℚ → ℚ) (n c : String) (d : List (String × ℚ)) :
    itemsTotal M (d.map (fun p => GroceryItem.mk n p.2 p.1 c)) = dictTotal M d := by
  unfold itemsTotal dictTotal
  rw [List.map_map]
  rfl

theorem consolidateGroup_total (M : String → ℚ → ℚ)
    (hM : ∀ u a b, M u (a + b) = M u a + M u b)
    (hconv : ∀ (b u : String) (q v : ℚ), u ≠ b → normalize_unit u = u →
      normalize_unit b = b → convert_units q u b = .ok v → M b v = M u q)
    (nm : String) {g : List Entry} (hpos : ∀ e ∈ g, 0 < e.quantity) :
    itemsTotal M (consolidateGroup nm g) =
      (g.map (fun e => M (normalize_unit e.unit) e.quantity)).sum := by
  rcases g with _ | ⟨first, grest⟩
  · simp [consolidateGroup, itemsTotal]
  · rw [← dictTotal_buildByUnit M hM (first :: grest)]
    have hnormal := buildByUnit_keys_normal (first :: grest)
    have hnodup := buildByUnit_keys_nodup (first :: grest)
    have hposd : ∀ p ∈ buildByUnit (first :: grest), 0 < p.2 := buildByUnit_pos hpos
    simp only [consolidateGroup]
    by_cases hlen : 1 < (buildByUnit (first :: grest)).length
    · rw [if_pos hlen]
      rcases hbu : buildByUnit (first :: grest) with _ | ⟨⟨b, q0⟩, rest⟩
      · rw [hbu] at hlen
        simp at hlen
      · simp only []
        have hb : normalize_unit b = b := by
          have := hnormal (b, q0) (by rw [hbu]; exact List.mem_cons_self _ _)
          simpa using this
        have hq0 : 0 < q0 := by
          have := hposd (b, q0) (by rw [hbu]; exact List.mem_cons_self _ _)
          simpa using this
        have hrestpos : ∀ p ∈ rest, 0 < p.2 := by
          intro p hp
          exact hposd p (by rw [hbu]; exact List.mem_cons_of_mem _ hp)
        have hkeys : ∀ p ∈ rest, normalize_unit p.1 = p.1 ∧ p.1 ≠ b := by
          intro p hp
          refine ⟨hnormal p (by rw [hbu]; exact List.mem_cons_of_mem _ hp), ?_⟩
          rw [hbu] at hnodup
          simp only [List.map_cons, List.nodup_cons] at hnodup
          intro he
          exact hnodup.1 (he ▸ List.mem_map.2 ⟨p, hp, rfl⟩)
        have hfold := foldStep_total M hM (hconv b) hb rest hkeys q0
        have hfpos := foldStep_pos (b := b) hrestpos hq0
        have hall : ∀ p ∈ (b, (foldStep b rest q0).1) :: (foldStep b rest q0).2, 0 < p.2 := by
          intro p hp
          rcases List.mem_cons.1 hp with rfl | hp2
          · exact hfpos.1
          · exact hfpos.2 p hp2
        rw [filterMap_pos_map _ _ hall, itemsTotal_map]
        simp only [dictTotal, List.map_cons, List.sum_cons] at hfold ⊢
        exact hfold
    · rw [if_neg hlen]
      rw [filterMap_pos_map _ _ hposd, itemsTotal_map]

theorem consolidateGroup_names {nm : String} {g : List Entry}
    (hnames : ∀ e ∈ g, normalize_ingredient_name e.name = nm) :
    ∀ it ∈ consolidateGroup nm g, normalize_ingredient_name it.ingredient_name = nm := by
  rcases g with _ | ⟨first, grest⟩
  · simp [consolidateGroup]
  · intro it hit
    simp only [consolidateGroup] at hit
    rcases List.mem_filterMap.1 hit with ⟨p, _, hp⟩
    split at hp
    · cases Option.some.inj hp
      exact hnames first (List.mem_cons_self _ _)
    · cases hp

/-! ### Conservation through the whole consolidation -/

/-- Measure of the output restricted to one normalised ingredient name. -/
def outTotal (M : String → ℚ → ℚ) (nm : String) (items : List GroceryItem) : ℚ :=
  (items.map (fun it =>
    if normalize_ingredient_name it.ingredient_name = nm then M it.unit it.quantity else 0)).sum

/-- Measure of the input restricted to one normalised ingredient name. -/
def inTotal (M : String → ℚ → ℚ) (nm : String) (l : List Entry) : ℚ :=
  (l.map (fun e =>
    if normalize_ingredient_name e.name = nm then M (normalize_unit e.unit) e.quantity else 0)).sum

theorem outTotal_flatMap (M : String → ℚ → ℚ) (nm : String) {α : Type _}
    (l : List α) (f : α → List GroceryItem) :
    outTotal M nm (l.flatMap f) = (l.map (fun a => outTotal M nm (f a))).sum := by
  induction l with
  | nil => simp [outTotal]
  | cons a rest ih =>
    simp only [List.flatMap_cons, List.map_cons, List.sum_cons, outTotal,
      List.map_append, List.sum_append] at *
    rw [ih]

theorem outTotal_eq_itemsTotal {M : String → ℚ → ℚ} {nm : String} {items : List GroceryItem}
    (h : ∀ it ∈ items, normalize_ingredient_name it.ingredient_name = nm) :
    outTotal M nm items = itemsTotal M items := by
  unfold outTotal itemsTotal
  congr 1
  apply List.map_congr_left
  intro it hit
  rw [if_pos (h it hit)]

theorem outTotal_eq_zero {M : String → ℚ → ℚ} {nm : String} {items : List GroceryItem}
    (h : ∀ it ∈ items, normalize_ingredient_name it.ingredient_name ≠ nm) :
    outTotal M nm items = 0 := by
  unfold outTotal
  apply List.sum_eq_zero
  intro x hx
  rcases List.mem_map.1 hx with ⟨it, hit, rfl⟩
  rw [if_neg (h it hit)]

theorem inTotal_eq_zero {M : String → ℚ → ℚ} {nm : String} {l : List Entry}
    (h : ∀ e ∈ l, normalize_ingredient_name e.name ≠ nm) :
    inTotal M nm l = 0 := by
  unfold inTotal
  apply List.sum_eq_zero
  intro x hx
  rcases List.mem_map.1 hx with ⟨e, he, rfl⟩
  rw [if_neg (h e he)]

theorem inTotal_of_names {M : String → ℚ → ℚ} {nm : String} {g : List Entry}
    (h : ∀ e ∈ g, normalize_ingredient_name e.name = nm) :
    inTotal M nm g = (g.map (fun e => M (normalize_unit e.unit) e.quantity)).sum := by
  unfold inTotal
  congr 1
  apply List.map_congr_left
  intro e he
  rw [if_pos (h e he)]

theorem inTotal_filter (M : String → ℚ → ℚ) (nm : String) (l : List Entry) :
    inTotal M nm (l.filter (fun e => normalize_ingredient_name e.name = nm)) =
      inTotal M nm l := by
  induction l with
  | nil => rfl
  | cons e rest ih =>
    rw [List.filter_cons]
    by_cases he : normalize_ingredient_name e.name = nm
    · rw [if_pos (by simpa using he)]
      unfold inTotal at *
      simp only [List.map_cons, List.sum_cons]
      rw [ih]
    · rw [if_neg (by simpa using he)]
      unfold inTotal at *
      simp only [List.map_cons, List.sum_cons]
      rw [ih, if_neg he]
      ring

theorem sum_single {β : Type _} (f : String × β → ℚ) (groups : List (String × β)) (nm : String)
    (hnd : (groups.map Prod.fst).Nodup)
    (h0 : ∀ p ∈ groups, p.1 ≠ nm → f p = 0) :
    (groups.map f).sum =
      (match groups.lookup nm with | some g => f (nm, g) | none => 0) := by
  induction groups with
  | nil => simp [List.lookup]
  | cons p rest ih =>
    obtain ⟨k, g⟩ := p
    rw [List.map_cons, List.nodup_cons] at hnd
    simp only [List.map_cons, List.sum_cons]
    by_cases hk : k = nm
    · subst hk
      have hb : (k == k) = true := by simp
      rw [List.lookup, hb]
      simp only []
      have hrest : (rest.map f).sum = 0 := by
        apply List.sum_eq_zero
        intro x hx
        rcases List.mem_map.1 hx with ⟨p, hp, rfl⟩
        apply h0 p (List.mem_cons_of_mem _ hp)
        intro he
        exact hnd.1 (he ▸ List.mem_map.2 ⟨p, hp, rfl⟩)
      rw [hrest]
      ring
    · have hb : (nm == k) = false := by
        simp
        exact fun he => hk he.symm
      rw [List.lookup, hb]
      simp only []
      rw [h0 (k, g) (List.mem_cons_self _ _) hk]
      rw [ih hnd.2 (fun p hp => h0 p (List.mem_cons_of_mem _ hp))]
      ring

theorem consolidate_conserves (M : String → ℚ → ℚ)
    (hM : ∀ u a b, M u (a + b) = M u a + M u b)
    (hconv : ∀ (b u : String) (q v : ℚ), u ≠ b → normalize_unit u = u →
      normalize_unit b = b → convert_units q u b = .ok v → M b v = M u q)
    {l : List Entry} (hpos : ∀ e ∈ l, 0 < e.quantity) (nm : String) :
    outTotal M nm (consolidate_ingredients l) = inTotal M nm l := by
  rw [consolidate_ingredients]
  rw [outTotal_flatMap]
  have h0 : ∀ p ∈ groupByName l, p.1 ≠ nm →
      outTotal M nm (consolidateGroup p.1 p.2) = 0 := by
    intro p hp hne
    have hg := groupByName_groups hp
    apply outTotal_eq_zero
    intro it hit
    have hnames : ∀ e ∈ p.2, normalize_ingredient_name e.name = p.1 := by
      intro e he
      rw [hg] at he
      simpa using (List.mem_filter.1 he).2
    rw [consolidateGroup_names hnames it hit]
    exact hne
  have hsum := sum_single (fun p => outTotal M nm (consolidateGroup p.1 p.2))
    (groupByName l) nm (groupByName_keys_nodup l) h0
  rw [hsum, groupByName_lookup]
  rcases hf : l.filter (fun e => normalize_ingredient_name e.name = nm) with _ | ⟨e, fl⟩
  · rw [hf]
    have hnone : ∀ e ∈ l, normalize_ingredient_name e.name ≠ nm := by
      intro e he hne
      have : e ∈ l.filter (fun e => normalize_ingredient_name e.name = nm) :=
        List.mem_filter.2 ⟨he, by simpa using hne⟩
      rw [hf] at this
      simp at this
    rw [inTotal_eq_zero hnone]
  · rw [hf]
    have hnames : ∀ x ∈ e :: fl, normalize_ingredient_name x.name = nm := by
      intro x hx
      rw [← hf] at hx
      simpa using (List.mem_filter.1 hx).2
    have hposf : ∀ x ∈ e :: fl, 0 < x.quantity := by
      intro x hx
      rw [← hf] at hx
      exact hpos x (List.mem_filter.1 hx).1
    show outTotal M nm (consolidateGroup nm (e :: fl)) = inTotal M nm l
    rw [outTotal_eq_itemsTotal (consolidateGroup_names hnames)]
    rw [consolidateGroup_total M hM hconv nm hposf]
    rw [← inTotal_of_names hnames, ← hf, inTotal_filter]

/-! ### Fine structure of the folding loop and of `buildByUnit` -/

theorem foldStep_kept (b : String) (rest : List (String × ℚ)) (acc : ℚ) :
    (foldStep b rest acc).2 = rest.filter (fun p => ¬ can_convert_units p.1 b = true) := by
  induction rest generalizing acc with
  | nil => simp [foldStep]
  | cons p rest2 ih =>
    obtain ⟨u, q⟩ := p
    cases hc : can_convert_units u b
    · rw [foldStep_cons_skip hc, List.filter_cons]
      rw [if_pos (by simp [hc])]
      rw [ih]
    · rcases convert_units_ok_of_can (q := q) hc with ⟨v, hv⟩
      rw [foldStep_cons_ok hc hv, List.filter_cons]
      rw [if_neg (by simp [hc])]
      rw [ih]

theorem upsert_head {α : Type _} (f : α → α) (d : α) (k : String)
    (p : String × α) (rest : List (String × α)) :
    ∃ v rest2, upsert f d k (p :: rest) = (p.1, v) :: rest2 := by
  obtain ⟨k', v'⟩ := p
  by_cases hk : k' = k
  · subst hk
    exact ⟨f v', rest, by rw [upsert, if_pos rfl]⟩
  · exact ⟨v', upsert f d k rest, by rw [upsert, if_neg hk]⟩

theorem buildByUnit_head (e : Entry) (fl : List Entry) :
    ∃ v rest, buildByUnit (e :: fl) = (normalize_unit e.unit, v) :: rest := by
  rw [show buildByUnit (e :: fl) =
      fl.foldl (fun a x => upsert (· + x.quantity) x.quantity (normalize_unit x.unit) a)
        [(normalize_unit e.unit, e.quantity)] from rfl]
  have : ∀ (fl : List Entry) (v : ℚ) (rest : List (String × ℚ)),
      ∃ v2 rest2,
        fl.foldl (fun a x => upsert (· + x.quantity) x.quantity (normalize_unit x.unit) a)
          ((normalize_unit e.unit, v) :: rest) = (normalize_unit e.unit, v2) :: rest2 := by
    intro fl
    induction fl with
    | nil => exact fun v rest => ⟨v, rest, rfl⟩
    | cons x fl2 ih =>
      intro v rest
      simp only [List.foldl_cons]
      rcases upsert_head (· + x.quantity) x.quantity (normalize_unit x.unit)
        (normalize_unit e.unit, v) rest with ⟨v2, rest2, hu⟩
      rw [hu]
      exact ih v2 rest2
  exact this fl e.quantity []

theorem buildByUnit_mem_unit {g : List Entry} {e : Entry} (he : e ∈ g) :
    normalize_unit e.unit ∈ (buildByUnit g).map Prod.fst := by
  have h := buildByUnit_lookup g (normalize_unit e.unit)
  rcases hf : g.filter (fun x => normalize_unit x.unit = normalize_unit e.unit)
    with _ | ⟨x, fl⟩
  · exfalso
    have : e ∈ g.filter (fun x => normalize_unit x.unit = normalize_unit e.unit) :=
      List.mem_filter.2 ⟨he, by simp⟩
    rw [hf] at this
    simp at this
  · rw [hf] at h
    exact mem_fst_of_lookup h

theorem find?_of_filter {p : Entry → Bool} {l : List Entry} {e : Entry} {fl : List Entry}
    (h : l.filter p = e :: fl) : l.find? p = some e := by
  induction l with
  | nil => simp at h
  | cons x rest ih =>
    rw [List.filter_cons] at h
    by_cases hx : p x
    · rw [if_pos hx] at h
      cases h
      rw [List.find?_cons_of_pos _ hx]
    · rw [if_neg hx] at h
      rw [List.find?_cons_of_neg _ hx]
      exact ih h

/-! ### Claim C1: order-(in)dependence of consolidation -/

/-- C1 counterexample: the spec scenario itself refutes the claim as stated.
`8 oz` + `0.5 lb` of chicken breast consolidates to `16 oz` in one order and to
`1 lb` in the other, so the multiset of (name, unit, quantity) output tuples is
not permutation-invariant: the unit (and hence the numeric quantity) depends on
which entry came first. -/
theorem claim_C1_counterexample :
    ([⟨"chicken breast", 8, "oz"⟩, ⟨"chicken breast", 1/2, "lb"⟩] : List Entry).Perm
      [⟨"chicken breast", 1/2, "lb"⟩, ⟨"chicken breast", 8, "oz"⟩]
    ∧ consolidate_ingredients [⟨"chicken breast", 8, "oz"⟩, ⟨"chicken breast", 1/2, "lb"⟩]
        = [⟨"chicken breast", 16, "oz", "Meat & Seafood"⟩]
    ∧ consolidate_ingredients [⟨"chicken breast", 1/2, "lb"⟩, ⟨"chicken breast", 8, "oz"⟩]
        = [⟨"chicken breast", 1, "lb", "Meat & Seafood"⟩]
    ∧ ¬ ((consolidate_ingredients
            [⟨"chicken breast", 8, "oz"⟩, ⟨"chicken breast", 1/2, "lb"⟩]).map
              (fun it => (it.ingredient_name, it.unit, it.quantity))).Perm
          ((consolidate_ingredients
            [⟨"chicken breast", 1/2, "lb"⟩, ⟨"chicken breast", 8, "oz"⟩]).map
              (fun it => (it.ingredient_name, it.unit, it.quantity))) := by
  have h1 : consolidate_ingredients
      [⟨"chicken breast", 8, "oz"⟩, ⟨"chicken breast", 1/2, "lb"⟩]
      = [⟨"chicken breast", 16, "oz", "Meat & Seafood"⟩] := by
    norm_num [consolidate_ingredients, groupByName, buildByUnit, foldStep, consolidateGroup,
      upsert, List.foldl, List.flatMap, List.filterMap,
      show normalize_ingredient_name "chicken breast" = "chicken breast" from by decide,
      show normalize_unit "oz" = "oz" from by decide,
      show normalize_unit "lb" = "lb" from by decide,
      show can_convert_units "lb" "oz" = true from by decide,
      show get_ingredient_category "chicken breast" = "Meat & Seafood" from by decide,
      show VOLUME_TO_ML.lookup "lb" = none from by decide,
      show VOLUME_TO_ML.lookup "oz" = none from by decide,
      show WEIGHT_TO_G.lookup "lb" = some 453.592 from by
        simp +decide [WEIGHT_TO_G, List.lookup],
      show WEIGHT_TO_G.lookup "oz" = some 28.3495 from by
        simp +decide [WEIGHT_TO_G, List.lookup],
      convert_units]
    simp +decide
    norm_num
  have h2 : consolidate_ingredients
      [⟨"chicken breast", 1/2, "lb"⟩, ⟨"chicken breast", 8, "oz"⟩]
      = [⟨"chicken breast", 1, "lb", "Meat & Seafood"⟩] := by
    norm_num [consolidate_ingredients, groupByName, buildByUnit, foldStep, consolidateGroup,
      upsert, List.foldl, List.flatMap, List.filterMap,
      show normalize_ingredient_name "chicken breast" = "chicken breast" from by decide,
      show normalize_unit "oz" = "oz" from by decide,
      show normalize_unit "lb" = "lb" from by decide,
      show can_convert_units "oz" "lb" = true from by decide,
      show get_ingredient_category "chicken breast" = "Meat & Seafood" from by decide,
      show VOLUME_TO_ML.lookup "lb" = none from by decide,
      show VOLUME_TO_ML.lookup "oz" = none from by decide,
      show WEIGHT_TO_G.lookup "lb" = some 453.592 from by
        simp +decide [WEIGHT_TO_G, List.lookup],
      show WEIGHT_TO_G.lookup "oz" = some 28.3495 from by
        simp +decide [WEIGHT_TO_G, List.lookup],
      convert_units]
    simp +decide
    norm_num
  refine ⟨List.Perm.swap _ _ _, h1, h2, ?_⟩
  rw [h1, h2]
  intro hperm
  have hmem : ("chicken breast", "oz", (16 : ℚ)) ∈
      ([⟨"chicken breast", 1, "lb", "Meat & Seafood"⟩] : List GroceryItem).map
        (fun it => (it.ingredient_name, it.unit, it.quantity)) := by
    apply hperm.mem_iff.1
    simp
  simp at hmem

/-- C1 corrected: permuting the input entries preserves, for every normalised
ingredient name, the total volume in millilitres, the total weight in grams,
and the total of every count unit separately (exactly, over ℚ), even though
the (name, unit, quantity) tuples themselves may differ. -/
theorem claim_C1_amended_order_invariant_totals :
    ∀ (l l' : List Entry), l.Perm l' → (∀ e ∈ l, 0 < e.quantity) →
    ∀ (nm u0 : String),
      outTotal volContrib nm (consolidate_ingredients l) =
        outTotal volContrib nm (consolidate_ingredients l')
      ∧ outTotal wtContrib nm (consolidate_ingredients l) =
          outTotal wtContrib nm (consolidate_ingredients l')
      ∧ outTotal (cntContrib u0) nm (consolidate_ingredients l) =
          outTotal (cntContrib u0) nm (consolidate_ingredients l') := by
  intro l l' hperm hpos nm u0
  have hpos' : ∀ e ∈ l', 0 < e.quantity := fun e he => hpos e (hperm.mem_iff.2 he)
  have hin : ∀ M : String → ℚ → ℚ, inTotal M nm l = inTotal M nm l' :=
    fun M => List.Perm.sum_eq (hperm.map _)
  constructor
  · rw [consolidate_conserves volContrib volContrib_add
      (fun b u q v hne hu hb hok => volContrib_convert hu hb hne hok) hpos nm]
    rw [consolidate_conserves volContrib volContrib_add
      (fun b u q v hne hu hb hok => volContrib_convert hu hb hne hok) hpos' nm]
    exact hin volContrib
  constructor
  · rw [consolidate_conserves wtContrib wtContrib_add
      (fun b u q v hne hu hb hok => wtContrib_convert hu hb hne hok) hpos nm]
    rw [consolidate_conserves wtContrib wtContrib_add
      (fun b u q v hne hu hb hok => wtContrib_convert hu hb hne hok) hpos' nm]
    exact hin wtContrib
  · rw [consolidate_conserves (cntContrib u0) (cntContrib_add u0)
      (fun b u q v hne hu hb hok => cntContrib_convert u0 hu hb hne hok) hpos nm]
    rw [consolidate_conserves (cntContrib u0) (cntContrib_add u0)
      (fun b u q v hne hu hb hok => cntContrib_convert u0 hu hb hne hok) hpos' nm]
    exact hin (cntContrib u0)

/-- C1 witness: the amended theorem applied to the spec scenario; both orders
give 8·28.3495 + 0.5·453.592 = 453.592 grams of chicken breast. -/
theorem claim_C1_amended_order_invariant_totals_witness :
    ([⟨"chicken breast", 8, "oz"⟩, ⟨"chicken breast", 1/2, "lb"⟩] : List Entry).Perm
      [⟨"chicken breast", 1/2, "lb"⟩, ⟨"chicken breast", 8, "oz"⟩]
    ∧ (∀ e ∈ ([⟨"chicken breast", 8, "oz"⟩, ⟨"chicken breast", 1/2, "lb"⟩] : List Entry),
        0 < e.quantity)
    ∧ (outTotal wtContrib "chicken breast" (consolidate_ingredients
          [⟨"chicken breast", 8, "oz"⟩, ⟨"chicken breast", 1/2, "lb"⟩]) =
        outTotal wtContrib "chicken breast" (consolidate_ingredients
          [⟨"chicken breast", 1/2, "lb"⟩, ⟨"chicken breast", 8, "oz"⟩])) := by
  have hperm : ([⟨"chicken breast", 8, "oz"⟩, ⟨"chicken breast", 1/2, "lb"⟩] : List Entry).Perm
      [⟨"chicken breast", 1/2, "lb"⟩, ⟨"chicken breast", 8, "oz"⟩] := List.Perm.swap _ _ _
  have hpos : ∀ e ∈ ([⟨"chicken breast", 8, "oz"⟩, ⟨"chicken breast", 1/2, "lb"⟩] : List Entry),
      0 < e.quantity := by
    intro e he
    simp only [List.mem_cons, List.not_mem_nil, or_false] at he
    rcases he with rfl | rfl <;> norm_num
  exact ⟨hperm, hpos,
    (claim_C1_amended_order_invariant_totals _ _ hperm hpos "chicken breast" "whole").2.1⟩

/-! ### Per-item dissection of one consolidated group -/

theorem consolidateGroup_mem_cases {nm : String} {e₀ : Entry} {ents : List Entry}
    {it : GroceryItem} (hit : it ∈ consolidateGroup nm (e₀ :: ents)) :
    ∃ s0 burest, buildByUnit (e₀ :: ents) = (normalize_unit e₀.unit, s0) :: burest
    ∧ it.ingredient_name = e₀.name ∧ it.category = get_ingredient_category nm
    ∧ 0 < it.quantity
    ∧ ((it.unit = normalize_unit e₀.unit
          ∧ ((burest = [] ∧ it.quantity = s0)
             ∨ (burest ≠ []
                ∧ it.quantity = (foldStep (normalize_unit e₀.unit) burest s0).1)))
       ∨ (can_convert_units it.unit (normalize_unit e₀.unit) = false
          ∧ (it.unit, it.quantity) ∈ burest)) := by
  rcases buildByUnit_head e₀ ents with ⟨s0, burest, hbu⟩
  refine ⟨s0, burest, hbu, ?_⟩
  simp only [consolidateGroup] at hit
  rw [hbu] at hit
  by_cases hlen : burest = []
  · subst hlen
    rw [if_neg (by simp)] at hit
    rcases List.mem_filterMap.1 hit with ⟨p, hp, hpit⟩
    split at hpit
    · cases Option.some.inj hpit
      simp only [List.mem_singleton] at hp
      subst hp
      refine ⟨rfl, rfl, by assumption, Or.inl ⟨rfl, Or.inl ⟨rfl, rfl⟩⟩⟩
    · cases hpit
  · rw [if_pos (by
      simp only [List.length_cons]
      have : 0 < burest.length := List.length_pos.2 hlen
      omega)] at hit
    rcases List.mem_filterMap.1 hit with ⟨p, hp, hpit⟩
    split at hpit
    · cases Option.some.inj hpit
      rcases List.mem_cons.1 hp with rfl | hp2
      · exact ⟨rfl, rfl, by assumption, Or.inl ⟨rfl, Or.inr ⟨hlen, rfl⟩⟩⟩
      · rw [foldStep_kept] at hp2
        have hfk := List.mem_filter.1 hp2
        refine ⟨rfl, rfl, by assumption, Or.inr ⟨?_, hfk.1⟩⟩
        have := hfk.2
        simp at this
        exact this
    · cases hpit

theorem consolidate_mem {l : List Entry} {it : GroceryItem}
    (hit : it ∈ consolidate_ingredients l) :
    ∃ k g, (k, g) ∈ groupByName l ∧ it ∈ consolidateGroup k g := by
  rw [consolidate_ingredients] at hit
  rcases List.mem_flatMap.1 hit with ⟨p, hp, hmem⟩
  exact ⟨p.1, p.2, by simpa using hp, hmem⟩

theorem consolidateGroup_base_measure (M : String → ℚ → ℚ)
    (hM : ∀ u a b, M u (a + b) = M u a + M u b)
    {nm : String} {e₀ : Entry} {ents : List Entry} {it : GroceryItem}
    (hit : it ∈ consolidateGroup nm (e₀ :: ents))
    (hbase : it.unit = normalize_unit e₀.unit)
    (hconvb : ∀ (u : String) (q v : ℚ), u ≠ it.unit → normalize_unit u = u →
      normalize_unit it.unit = it.unit → convert_units q u it.unit = .ok v →
      M it.unit v = M u q)
    (hzero : ∀ (u : String) (q : ℚ), normalize_unit u = u →
      can_convert_units u it.unit = false → M u q = 0) :
    M it.unit it.quantity =
      ((e₀ :: ents).map (fun e => M (normalize_unit e.unit) e.quantity)).sum := by
  rcases consolidateGroup_mem_cases hit with
    ⟨s0, burest, hbu, _, _, _, hcase⟩
  have hu0 : normalize_unit (normalize_unit e₀.unit) = normalize_unit e₀.unit :=
    normalize_unit_idem e₀.unit
  rcases hcase with ⟨_, hqcase⟩ | ⟨hcan, _⟩
  · rw [← dictTotal_buildByUnit M hM (e₀ :: ents), hbu]
    rcases hqcase with ⟨hnil, hq⟩ | ⟨hne, hq⟩
    · subst hnil
      rw [hq, hbase]
      simp [dictTotal]
    · have hnormal := buildByUnit_keys_normal (e₀ :: ents)
      have hnodup := buildByUnit_keys_nodup (e₀ :: ents)
      have hkeys : ∀ p ∈ burest, normalize_unit p.1 = p.1 ∧ p.1 ≠ normalize_unit e₀.unit := by
        intro p hp
        refine ⟨hnormal p (by rw [hbu]; exact List.mem_cons_of_mem _ hp), ?_⟩
        rw [hbu] at hnodup
        simp only [List.map_cons, List.nodup_cons] at hnodup
        intro he
        exact hnodup.1 (he ▸ List.mem_map.2 ⟨p, hp, rfl⟩)
      have hconv2 : ∀ (u : String) (q v : ℚ), u ≠ normalize_unit e₀.unit →
          normalize_unit u = u → normalize_unit (normalize_unit e₀.unit) = normalize_unit e₀.unit →
          convert_units q u (normalize_unit e₀.unit) = .ok v →
          M (normalize_unit e₀.unit) v = M u q := by
        intro u q v h1 h2 h3 h4
        rw [← hbase] at h1 h4 ⊢
        exact hconvb u q v h1 h2 (hbase ▸ h3) h4
      have hfold := foldStep_total M hM hconv2 hu0 burest hkeys s0
      have hkept : dictTotal M (foldStep (normalize_unit e₀.unit) burest s0).2 = 0 := by
        unfold dictTotal
        apply List.sum_eq_zero
        intro x hx
        rcases List.mem_map.1 hx with ⟨p, hp, rfl⟩
        rw [foldStep_kept] at hp
        have hfk := List.mem_filter.1 hp
        have hcanp : can_convert_units p.1 (normalize_unit e₀.unit) = false := by
          have := hfk.2
          simp at this
          exact this
        exact hzero p.1 p.2 (hkeys p hfk.1).1 (hbase ▸ hcanp)
      rw [hq, hbase]
      rw [hkept] at hfold
      simp only [dictTotal, List.map_cons, List.sum_cons] at hfold ⊢
      have := hfold
      rw [add_zero] at this
      rw [this]
  · exfalso
    rw [hbase] at hcan
    have : can_convert_units (normalize_unit e₀.unit) (normalize_unit e₀.unit) = true :=
      (can_convert_units_iff _ _).2 (Or.inl rfl)
    rw [hcan] at this
    cases this

/-- Emission of the base entry: a nonempty name group with positive
quantities always emits an item under the first entry's display name, the
first-encountered normalised unit and the group's category. -/
theorem consolidateGroup_base_emitted (nm : String) {e₀ : Entry} {ents : List Entry}
    (hpos : ∀ e ∈ e₀ :: ents, 0 < e.quantity) :
    ∃ q : ℚ, 0 < q ∧
      (⟨e₀.name, q, normalize_unit e₀.unit, get_ingredient_category nm⟩ : GroceryItem)
        ∈ consolidateGroup nm (e₀ :: ents) := by
  rcases buildByUnit_head e₀ ents with ⟨s0, burest, hbu⟩
  have hposd := buildByUnit_pos hpos
  have hs0 : 0 < s0 := by
    have := hposd (normalize_unit e₀.unit, s0) (by rw [hbu]; exact List.mem_cons_self _ _)
    simpa using this
  simp only [consolidateGroup]
  rw [hbu]
  cases burest with
  | nil =>
    rw [if_neg (by simp)]
    refine ⟨s0, hs0, ?_⟩
    apply List.mem_filterMap.2
    refine ⟨(normalize_unit e₀.unit, s0), List.mem_singleton.2 rfl, ?_⟩
    rw [if_pos hs0]
  | cons p1 ps =>
    rw [if_pos (by simp)]
    have hrestpos : ∀ p ∈ p1 :: ps, 0 < p.2 := by
      intro p hp
      exact hposd p (by rw [hbu]; exact List.mem_cons_of_mem _ hp)
    have hfs := foldStep_pos (b := normalize_unit e₀.unit) hrestpos hs0
    refine ⟨(foldStep (normalize_unit e₀.unit) (p1 :: ps) s0).1, hfs.1, ?_⟩
    apply List.mem_filterMap.2
    refine ⟨(normalize_unit e₀.unit, (foldStep (normalize_unit e₀.unit) (p1 :: ps) s0).1),
      List.mem_cons_self _ _, ?_⟩
    rw [if_pos hfs.1]

/-- Emission of the non-convertible units: every unit present in a name group
that differs from the base unit and cannot be converted to it is kept as a
separate output entry whose quantity is that unit's summed quantity. -/
theorem consolidateGroup_noncon_emitted (nm : String) {e₀ : Entry} {ents : List Entry}
    {u : String} (hpos : ∀ e ∈ e₀ :: ents, 0 < e.quantity)
    (hneu : u ≠ normalize_unit e₀.unit)
    (hcan : can_convert_units u (normalize_unit e₀.unit) = false)
    (hfu : (e₀ :: ents).filter (fun x => normalize_unit x.unit = u) ≠ []) :
    (⟨e₀.name, (((e₀ :: ents).filter (fun x => normalize_unit x.unit = u)).map
        Entry.quantity).sum, u, get_ingredient_category nm⟩ : GroceryItem)
      ∈ consolidateGroup nm (e₀ :: ents) := by
  rcases buildByUnit_head e₀ ents with ⟨s0, burest, hbu⟩
  rcases hf : (e₀ :: ents).filter (fun x => normalize_unit x.unit = u) with _ | ⟨e, fl⟩
  · exact absurd hf hfu
  have hlk : (buildByUnit (e₀ :: ents)).lookup u
      = some (e.quantity + (fl.map Entry.quantity).sum) := by
    rw [buildByUnit_lookup, hf]
  have hmem : (u, e.quantity + (fl.map Entry.quantity).sum) ∈ buildByUnit (e₀ :: ents) :=
    lookup_mem hlk
  have hv : 0 < e.quantity + (fl.map Entry.quantity).sum := by
    have := buildByUnit_pos hpos _ hmem
    simpa using this
  have hmem2 : (u, e.quantity + (fl.map Entry.quantity).sum) ∈ burest := by
    rw [hbu] at hmem
    rcases List.mem_cons.1 hmem with he | h2
    · exact absurd (congrArg Prod.fst he) hneu
    · exact h2
  have hsum : (((e₀ :: ents).filter (fun x => normalize_unit x.unit = u)).map
      Entry.quantity).sum = e.quantity + (fl.map Entry.quantity).sum := by
    rw [hf, List.map_cons, List.sum_cons]
  rw [hsum]
  simp only [consolidateGroup]
  rw [hbu]
  cases burest with
  | nil => exact absurd hmem2 (List.not_mem_nil _)
  | cons p1 ps =>
    rw [if_pos (by simp)]
    apply List.mem_filterMap.2
    refine ⟨(u, e.quantity + (fl.map Entry.quantity).sum), ?_, ?_⟩
    · apply List.mem_cons_of_mem
      rw [foldStep_kept]
      exact List.mem_filter.2 ⟨hmem2, by simp [hcan]⟩
    · rw [if_pos hv]

theorem consolidate_mem_group {l : List Entry} {it : GroceryItem}
    (hit : it ∈ consolidate_ingredients l) :
    ∃ first grest,
      l.filter (fun x => normalize_ingredient_name x.name =
        normalize_ingredient_name it.ingredient_name) = first :: grest
      ∧ it ∈ consolidateGroup (normalize_ingredient_name it.ingredient_name)
          (first :: grest) := by
  rcases consolidate_mem hit with ⟨k, g, hkg, hmem⟩
  have hg := groupByName_groups hkg
  rcases hgl : g with _ | ⟨first, grest⟩
  · rw [hgl] at hmem
    simp [consolidateGroup] at hmem
  · rw [hgl] at hmem hg
    have hname : it.ingredient_name = first.name :=
      (consolidateGroup_mem_cases hmem).choose_spec.choose_spec.2.1
    have hfirst : first ∈ l.filter (fun x => normalize_ingredient_name x.name = k) := by
      rw [← hg]
      exact List.mem_cons_self _ _
    have hk : normalize_ingredient_name it.ingredient_name = k := by
      rw [hname]
      simpa using (List.mem_filter.1 hfirst).2
    refine ⟨first, grest, ?_, ?_⟩
    · rw [hk]
      exact hg.symm
    · rw [hk]
      exact hmem

theorem cnt_sum {u0 : String} (h1 : VOLUME_TO_ML.lookup u0 = none)
    (h2 : WEIGHT_TO_G.lookup u0 = none) (g : List Entry) :
    (g.map (fun e => cntContrib u0 (normalize_unit e.unit) e.quantity)).sum =
      ((g.filter (fun x => normalize_unit x.unit = u0)).map Entry.quantity).sum := by
  induction g with
  | nil => rfl
  | cons e rest ih =>
    rw [List.map_cons, List.sum_cons, List.filter_cons]
    by_cases he : normalize_unit e.unit = u0
    · rw [if_pos (by simpa using he)]
      rw [List.map_cons, List.sum_cons, ih]
      unfold cntContrib
      rw [if_pos ⟨he, he ▸ h1, he ▸ h2⟩]
    · rw [if_neg (by simpa using he)]
      rw [ih]
      unfold cntContrib
      rw [if_neg (by
        rintro ⟨hc, _, _⟩
        exact he hc)]
      ring

/-- C4: consolidation groups by normalised name keeping the first-encountered
display name and the category of the normalised name; only positive quantities
are ever emitted; every output is either in the group's base unit (the first
entry's normalised unit, absorbing every convertible unit: the base-unit totals
in ml for volume and g for weight, and the plain sum for a count base) or in a
unit not convertible to the base, in which case its quantity is exactly the sum
of that unit's entries. Conversely (emission completeness, for positive input
quantities): every nonempty name group emits an entry in its base unit, and
every unit of the group that is not the base unit and not convertible to it is
emitted as its own separate entry carrying that unit's per-unit sum. -/
theorem claim_C4_consolidation_structure : ∀ (l : List Entry),
    (∀ it ∈ consolidate_ingredients l, 0 < it.quantity)
    ∧ (∀ it ∈ consolidate_ingredients l,
        (∃ e, l.find? (fun x => normalize_ingredient_name x.name =
            normalize_ingredient_name it.ingredient_name) = some e
          ∧ it.ingredient_name = e.name)
        ∧ it.category = get_ingredient_category (normalize_ingredient_name it.ingredient_name))
    ∧ (∀ it ∈ consolidate_ingredients l, ∀ (e₀ : Entry) (ents : List Entry),
        l.filter (fun x => normalize_ingredient_name x.name =
            normalize_ingredient_name it.ingredient_name) = e₀ :: ents →
          (it.unit = normalize_unit e₀.unit
            ∨ (can_convert_units it.unit (normalize_unit e₀.unit) = false
               ∧ it.quantity = (((e₀ :: ents).filter
                   (fun x => normalize_unit x.unit = it.unit)).map Entry.quantity).sum)))
    ∧ (∀ it ∈ consolidate_ingredients l, ∀ (e₀ : Entry) (ents : List Entry),
        l.filter (fun x => normalize_ingredient_name x.name =
            normalize_ingredient_name it.ingredient_name) = e₀ :: ents →
        it.unit = normalize_unit e₀.unit →
          ((VOLUME_TO_ML.lookup it.unit).isSome →
            volContrib it.unit it.quantity = ((e₀ :: ents).map (fun e =>
              volContrib (normalize_unit e.unit) e.quantity)).sum)
          ∧ ((WEIGHT_TO_G.lookup it.unit).isSome →
            wtContrib it.unit it.quantity = ((e₀ :: ents).map (fun e =>
              wtContrib (normalize_unit e.unit) e.quantity)).sum)
          ∧ (VOLUME_TO_ML.lookup it.unit = none → WEIGHT_TO_G.lookup it.unit = none →
            it.quantity = (((e₀ :: ents).filter
              (fun x => normalize_unit x.unit = it.unit)).map Entry.quantity).sum))
    ∧ ((∀ e ∈ l, 0 < e.quantity) → ∀ (nm : String) (e₀ : Entry) (ents : List Entry),
        l.filter (fun x => normalize_ingredient_name x.name = nm) = e₀ :: ents →
          ∃ q : ℚ, 0 < q ∧
            (⟨e₀.name, q, normalize_unit e₀.unit, get_ingredient_category nm⟩ : GroceryItem)
              ∈ consolidate_ingredients l)
    ∧ ((∀ e ∈ l, 0 < e.quantity) → ∀ (nm : String) (e₀ : Entry) (ents : List Entry)
        (u : String),
        l.filter (fun x => normalize_ingredient_name x.name = nm) = e₀ :: ents →
        u ≠ normalize_unit e₀.unit →
        can_convert_units u (normalize_unit e₀.unit) = false →
        (e₀ :: ents).filter (fun x => normalize_unit x.unit = u) ≠ [] →
          (⟨e₀.name, (((e₀ :: ents).filter (fun x => normalize_unit x.unit = u)).map
              Entry.quantity).sum, u, get_ingredient_category nm⟩ : GroceryItem)
            ∈ consolidate_ingredients l) := by
  intro l
  refine ⟨?_, ?_, ?_, ?_, ?_, ?_⟩
  · intro it hit
    rcases consolidate_mem_group hit with ⟨first, grest, _, hmem⟩
    exact (consolidateGroup_mem_cases hmem).choose_spec.choose_spec.2.2.2.1
  · intro it hit
    rcases consolidate_mem_group hit with ⟨first, grest, hfil, hmem⟩
    rcases consolidateGroup_mem_cases hmem with ⟨s0, burest, hbu, hname, hcat, _, _⟩
    exact ⟨⟨first, find?_of_filter hfil, hname⟩, hcat⟩
  · intro it hit e₀ ents hfil
    rcases consolidate_mem_group hit with ⟨first, grest, hfil2, hmem⟩
    rw [hfil] at hfil2
    cases hfil2
    rcases consolidateGroup_mem_cases hmem with ⟨s0, burest, hbu, _, _, _, hcase⟩
    rcases hcase with ⟨hbase, _⟩ | ⟨hcan, hmem2⟩
    · exact Or.inl hbase
    · refine Or.inr ⟨hcan, ?_⟩
      have hlk : (buildByUnit (e₀ :: ents)).lookup it.unit = some it.quantity := by
        apply mem_dict_lookup (buildByUnit_keys_nodup _)
        rw [hbu]
        exact List.mem_cons_of_mem _ hmem2
      rw [buildByUnit_lookup] at hlk
      rcases hf : (e₀ :: ents).filter (fun x => normalize_unit x.unit = it.unit)
        with _ | ⟨e, fl⟩ <;> rw [hf] at hlk
      · cases hlk
      · have heq := Option.some.inj hlk
        rw [hf, List.map_cons, List.sum_cons, ← heq]
  · intro it hit e₀ ents hfil hbase
    rcases consolidate_mem_group hit with ⟨first, grest, hfil2, hmem⟩
    rw [hfil] at hfil2
    cases hfil2
    have hitnorm : normalize_unit it.unit = it.unit := by
      rw [hbase]
      exact normalize_unit_idem e₀.unit
    refine ⟨?_, ?_, ?_⟩
    · intro hvol
      apply consolidateGroup_base_measure volContrib volContrib_add hmem hbase
      · intro u q v hne hu hn hok
        exact volContrib_convert hu hn hne hok
      · intro u q hu hcan
        unfold volContrib
        rcases hlu : VOLUME_TO_ML.lookup u with _ | f
        · rfl
        · exfalso
          have : can_convert_units u it.unit = true := by
            apply (can_convert_units_iff u it.unit).2
            refine Or.inr (Or.inl ⟨?_, ?_⟩)
            · rw [hu, hlu]; rfl
            · rwa [hitnorm]
          rw [hcan] at this
          cases this
    · intro hwt
      apply consolidateGroup_base_measure wtContrib wtContrib_add hmem hbase
      · intro u q v hne hu hn hok
        exact wtContrib_convert hu hn hne hok
      · intro u q hu hcan
        unfold wtContrib
        rcases hlu : WEIGHT_TO_G.lookup u with _ | f
        · rfl
        · exfalso
          have : can_convert_units u it.unit = true := by
            apply (can_convert_units_iff u it.unit).2
            refine Or.inr (Or.inr ⟨?_, ?_⟩)
            · rw [hu, hlu]; rfl
            · rwa [hitnorm]
          rw [hcan] at this
          cases this
    · intro hv hw
      have hmeas := consolidateGroup_base_measure (cntContrib it.unit)
        (cntContrib_add it.unit) hmem hbase
        (fun u q v hne hu hn hok => cntContrib_convert it.unit hu hn hne hok)
        (fun u q hu hcan => by
          unfold cntContrib
          rw [if_neg (by
            rintro ⟨hc, _, _⟩
            have hct : can_convert_units u it.unit = true := by
              apply (can_convert_units_iff u it.unit).2
              refine Or.inl ?_
              rw [hu, hitnorm]
              exact hc
            rw [hcan] at hct
            cases hct)])
      rw [cnt_sum hv hw] at hmeas
      rw [← hmeas]
      unfold cntContrib
      rw [if_pos ⟨rfl, hv, hw⟩]
  · intro hpos nm e₀ ents hfil
    have hgmem : (nm, e₀ :: ents) ∈ groupByName l := by
      apply lookup_mem
      rw [groupByName_lookup, hfil]
    have hpos2 : ∀ e ∈ e₀ :: ents, 0 < e.quantity := by
      intro e he
      rw [← hfil] at he
      exact hpos e (List.mem_filter.1 he).1
    rcases consolidateGroup_base_emitted nm hpos2 with ⟨q, hq, hmem⟩
    refine ⟨q, hq, ?_⟩
    rw [consolidate_ingredients]
    exact List.mem_flatMap.2 ⟨(nm, e₀ :: ents), hgmem, hmem⟩
  · intro hpos nm e₀ ents u hfil hneu hcan hfu
    have hgmem : (nm, e₀ :: ents) ∈ groupByName l := by
      apply lookup_mem
      rw [groupByName_lookup, hfil]
    have hpos2 : ∀ e ∈ e₀ :: ents, 0 < e.quantity := by
      intro e he
      rw [← hfil] at he
      exact hpos e (List.mem_filter.1 he).1
    have hmem := consolidateGroup_noncon_emitted nm hpos2 hneu hcan hfu
    rw [consolidate_ingredients]
    exact List.mem_flatMap.2 ⟨(nm, e₀ :: ents), hgmem, hmem⟩

/-- C4 witness: `1 cup` + `2 g` of "a": the "g" entry is not convertible to the
base unit "cup", stays separate, and its quantity is the per-unit sum; moreover
the group emits a positive entry in its base unit "cup" and the separate "g"
entry is indeed present in the output. -/
theorem claim_C4_consolidation_structure_witness :
    ((⟨"a", 2, "g", "Other"⟩ : GroceryItem) ∈
        consolidate_ingredients [⟨"a", 1, "cup"⟩, ⟨"a", 2, "g"⟩])
    ∧ ([⟨"a", 1, "cup"⟩, ⟨"a", 2, "g"⟩] : List Entry).filter
        (fun x => normalize_ingredient_name x.name =
          normalize_ingredient_name "a") = [⟨"a", 1, "cup"⟩, ⟨"a", 2, "g"⟩]
    ∧ (("g" : String) = normalize_unit "cup"
        ∨ (can_convert_units "g" (normalize_unit "cup") = false
           ∧ (2 : ℚ) = ((([⟨"a", 1, "cup"⟩, ⟨"a", 2, "g"⟩] : List Entry).filter
               (fun x => normalize_unit x.unit = "g")).map Entry.quantity).sum))
    ∧ (∃ q : ℚ, 0 < q ∧
        (⟨"a", q, normalize_unit "cup", get_ingredient_category "a"⟩ : GroceryItem)
          ∈ consolidate_ingredients [⟨"a", 1, "cup"⟩, ⟨"a", 2, "g"⟩])
    ∧ ((⟨"a", ((([⟨"a", 1, "cup"⟩, ⟨"a", 2, "g"⟩] : List Entry).filter
          (fun x => normalize_unit x.unit = "g")).map Entry.quantity).sum, "g",
          get_ingredient_category "a"⟩ : GroceryItem)
        ∈ consolidate_ingredients [⟨"a", 1, "cup"⟩, ⟨"a", 2, "g"⟩]) := by
  have hit : (⟨"a", 2, "g", "Other"⟩ : GroceryItem) ∈
      consolidate_ingredients [⟨"a", 1, "cup"⟩, ⟨"a", 2, "g"⟩] := by decide
  have hfil : ([⟨"a", 1, "cup"⟩, ⟨"a", 2, "g"⟩] : List Entry).filter
      (fun x => normalize_ingredient_name x.name =
        normalize_ingredient_name "a") = [⟨"a", 1, "cup"⟩, ⟨"a", 2, "g"⟩] := by decide
  have hfil2 : ([⟨"a", 1, "cup"⟩, ⟨"a", 2, "g"⟩] : List Entry).filter
      (fun x => normalize_ingredient_name x.name = "a")
        = [⟨"a", 1, "cup"⟩, ⟨"a", 2, "g"⟩] := by decide
  have hpos : ∀ e ∈ ([⟨"a", 1, "cup"⟩, ⟨"a", 2, "g"⟩] : List Entry), 0 < e.quantity := by
    intro e he
    fin_cases he <;> norm_num
  have hneu : ("g" : String) ≠ normalize_unit "cup" := by decide
  have hcan : can_convert_units "g" (normalize_unit "cup") = false := by decide
  have hfu : ([⟨"a", 1, "cup"⟩, ⟨"a", 2, "g"⟩] : List Entry).filter
      (fun x => normalize_unit x.unit = "g") ≠ [] := by decide
  exact ⟨hit, hfil,
    (claim_C4_consolidation_structure _).2.2.1 _ hit ⟨"a", 1, "cup"⟩ [⟨"a", 2, "g"⟩] hfil,
    (claim_C4_consolidation_structure _).2.2.2.2.1 hpos "a"
      ⟨"a", 1, "cup"⟩ [⟨"a", 2, "g"⟩] hfil2,
    (claim_C4_consolidation_structure _).2.2.2.2.2 hpos "a"
      ⟨"a", 1, "cup"⟩ [⟨"a", 2, "g"⟩] "g" hfil2 hneu hcan hfu⟩

/-! ### Display deduction: `_deduct_pantry_from_list` (`grocery_generator.py`) -/

/-- The `pantry_map` dictionary: pantry rows grouped by normalised name. -/
def pantryMap (pantry : List PantryRow) : List (String × List PantryRow) :=
  pantry.foldl (fun acc item =>
    upsert (· ++ [item]) [item] (normalize_ingredient_name item.ingredient_name) acc) []

/-- The per-item loop over matching pantry rows: greedy deduction with the
same-unit shortcut and unit conversion, skipping inconvertible rows. -/
def remainingAfterPantry (unit : String) : List PantryRow → ℚ → ℚ
  | [], needed => needed
  | p :: rest, needed =>
    if needed ≤ 0 then needed
    else if p.unit = unit then
      remainingAfterPantry unit rest (needed - min needed p.quantity)
    else if can_convert_units p.unit unit then
      match convert_units p.quantity p.unit unit with
      | .ok pq => remainingAfterPantry unit rest (needed - min needed pq)
      | .error _ => remainingAfterPantry unit rest needed
    else remainingAfterPantry unit rest needed

/-- `_deduct_pantry_from_list` from `grocery_generator.py`; the pantry
snapshot returned by `get_pantry_items()` is passed explicitly. -/
def deduct_pantry_from_list (pantry : List PantryRow)
    (grocery_items : List GroceryItem) : List GroceryItem :=
  if pantry = [] then grocery_items
  else
    let pantry_map := pantryMap pantry
    grocery_items.filterMap (fun g =>
      match pantry_map.lookup (normalize_ingredient_name g.ingredient_name) with
      | some entries =>
        let remaining := remainingAfterPantry g.unit entries g.quantity
        if 0.01 < remaining then
          some ⟨g.ingredient_name, remaining, g.unit, g.category⟩
        else none
      | none => some g)

theorem convert_units_nonneg {q v : ℚ} {u1 u2 : String} (hq : 0 ≤ q)
    (h : convert_units q u1 u2 = .ok v) : 0 ≤ v := by
  rcases convert_units_ok_cases h with ⟨_, rfl⟩ | ⟨f, t, _, h1, h2, rfl⟩ |
    ⟨f, t, _, h1, h2, rfl⟩
  · exact hq
  · exact div_nonneg (mul_nonneg hq (le_of_lt (vol_factor_pos h1)))
      (le_of_lt (vol_factor_pos h2))
  · exact div_nonneg (mul_nonneg hq (le_of_lt (weight_factor_pos h1)))
      (le_of_lt (weight_factor_pos h2))

theorem remainingAfterPantry_le {unit : String} {entries : List PantryRow}
    (hrows : ∀ p ∈ entries, 0 ≤ p.quantity) (needed : ℚ) :
    remainingAfterPantry unit entries needed ≤ needed := by
  induction entries generalizing needed with
  | nil => exact le_refl _
  | cons p rest ih =>
    have hrest : ∀ x ∈ rest, 0 ≤ x.quantity :=
      fun x hx => hrows x (List.mem_cons_of_mem _ hx)
    have hp : 0 ≤ p.quantity := hrows p (List.mem_cons_self _ _)
    rw [remainingAfterPantry]
    by_cases h0 : needed ≤ 0
    · rw [if_pos h0]
    · rw [if_neg h0]
      have hpos : 0 < needed := lt_of_not_le h0
      by_cases hu : p.unit = unit
      · rw [if_pos hu]
        refine le_trans (ih hrest _) ?_
        have : 0 ≤ min needed p.quantity := le_min (le_of_lt hpos) hp
        linarith
      · rw [if_neg hu]
        by_cases hc : can_convert_units p.unit unit
        · rw [if_pos hc]
          rcases hok : convert_units p.quantity p.unit unit with e | pq
          · exact ih hrest _
          · have hpq : 0 ≤ pq := convert_units_nonneg hp hok
            refine le_trans (ih hrest _) ?_
            have : 0 ≤ min needed pq := le_min (le_of_lt hpos) hpq
            linarith
        · rw [if_neg hc]
          exact ih hrest _

theorem pantryMap_rows (pantry : List PantryRow) :
    ∀ p ∈ pantryMap pantry, ∀ r ∈ p.2, r ∈ pantry := by
  show ∀ p ∈ pantry.foldl
      (fun a item =>
        upsert (fun g => g ++ [item]) [item]
          (normalize_ingredient_name item.ingredient_name) a) [],
    ∀ r ∈ p.2, r ∈ pantry
  exact dictFold_forall
    (fun (item : PantryRow) g => g ++ [item]) (fun item => [item])
    (fun item => normalize_ingredient_name item.ingredient_name)
    (by simp)
    (fun item hi => by
      intro r hr
      simp only [List.mem_singleton] at hr
      exact hr ▸ hi)
    (fun item hi v hv => by
      intro r hr
      rcases List.mem_append.1 hr with h1 | h1
      · exact hv r h1
      · simp only [List.mem_singleton] at h1
        exact h1 ▸ hi)

/-! ### Claim C3: the epsilon rule of display deduction -/

/-- C3 counterexample: a grocery item whose normalised name has NO pantry row
is passed through unchanged even when its quantity (= its remaining need,
nothing being deductible) is ≤ 0.01; the claim would require it to be omitted.
-/
theorem claim_C3_counterexample :
    deduct_pantry_from_list [⟨"b", 1, "cup"⟩] [⟨"a", 1/200, "cup", "Other"⟩]
      = [⟨"a", 1/200, "cup", "Other"⟩]
    ∧ remainingAfterPantry "cup" [] (1/200) = 1/200
    ∧ (1/200 : ℚ) ≤ 0.01 := by
  refine ⟨?_, rfl, by norm_num⟩
  norm_num [deduct_pantry_from_list, pantryMap, upsert, List.foldl, List.filterMap,
    List.lookup,
    show normalize_ingredient_name "a" = "a" from by decide,
    show normalize_ingredient_name "b" = "b" from by decide]
  simp +decide

/-- C3 corrected: the epsilon rule holds for every grocery item that has at
least one pantry row under its normalised name (and a nonempty pantry): the
item is re-emitted with quantity = remaining need, same name/unit/category,
exactly when remaining > 0.01, and omitted otherwise — in particular whenever
the pantry covers the full converted need.  Items with no matching pantry row
(or an empty pantry) are passed through unchanged, whatever their quantity. -/
theorem claim_C3_amended_deduction_epsilon : ∀ (pantry : List PantryRow) (g : GroceryItem)
    (rest : List GroceryItem) (entries : List PantryRow),
    pantry ≠ [] →
    (pantryMap pantry).lookup (normalize_ingredient_name g.ingredient_name) = some entries →
    deduct_pantry_from_list pantry (g :: rest) =
      (if 0.01 < remainingAfterPantry g.unit entries g.quantity then
        [⟨g.ingredient_name, remainingAfterPantry g.unit entries g.quantity,
          g.unit, g.category⟩]
       else [])
      ++ deduct_pantry_from_list pantry rest := by
  intro pantry g rest entries hne hlk
  unfold deduct_pantry_from_list
  rw [if_neg hne, if_neg hne]
  rw [List.filterMap_cons]
  rw [hlk]
  simp only []
  by_cases h : (0.01 : ℚ) < remainingAfterPantry g.unit entries g.quantity
  · rw [if_pos h, if_pos h]
    rfl
  · rw [if_neg h, if_neg h]
    rfl

/-- C3 witness: the spec scenario — pantry `2 cup flour`, need `0.5 cup Flour`:
the remaining need is 0, so the item is omitted (the if-branch is empty). -/
theorem claim_C3_amended_deduction_epsilon_witness :
    ([⟨"flour", 2, "cup"⟩] : List PantryRow) ≠ []
    ∧ (pantryMap [⟨"flour", 2, "cup"⟩]).lookup
        (normalize_ingredient_name "Flour") = some [⟨"flour", 2, "cup"⟩]
    ∧ deduct_pantry_from_list [⟨"flour", 2, "cup"⟩] [⟨"Flour", 1/2, "cup", "Pantry"⟩] =
        (if 0.01 < remainingAfterPantry "cup" [⟨"flour", 2, "cup"⟩] (1/2) then
          [⟨"Flour", remainingAfterPantry "cup" [⟨"flour", 2, "cup"⟩] (1/2),
            "cup", "Pantry"⟩]
         else []) ++ deduct_pantry_from_list [⟨"flour", 2, "cup"⟩] [] := by
  have h1 : ([⟨"flour", 2, "cup"⟩] : List PantryRow) ≠ [] := by simp
  have h2 : (pantryMap [⟨"flour", 2, "cup"⟩]).lookup
      (normalize_ingredient_name "Flour") = some [⟨"flour", 2, "cup"⟩] := by decide
  exact ⟨h1, h2, claim_C3_amended_deduction_epsilon [⟨"flour", 2, "cup"⟩]
    ⟨"Flour", 1/2, "cup", "Pantry"⟩ [] [⟨"flour", 2, "cup"⟩] h1 h2⟩

/-! ### Claim C9: display deduction is a per-item shrink -/

/-- The second list is obtained from the first by keeping each item in order,
possibly dropping it, and otherwise shrinking its quantity while keeping name,
unit and category; every kept quantity is strictly positive. -/
inductive DerivedFrom : List GroceryItem → List GroceryItem → Prop
  | nil : DerivedFrom [] []
  | skip {x : GroceryItem} {l l' : List GroceryItem} :
      DerivedFrom l l' → DerivedFrom (x :: l) l'
  | keep {x y : GroceryItem} {l l' : List GroceryItem} :
      y.ingredient_name = x.ingredient_name → y.unit = x.unit →
      y.category = x.category → 0 < y.quantity → y.quantity ≤ x.quantity →
      DerivedFrom l l' → DerivedFrom (x :: l) (y :: l')

theorem derivedFrom_refl {items : List GroceryItem}
    (hpos : ∀ it ∈ items, 0 < it.quantity) : DerivedFrom items items := by
  induction items with
  | nil => exact DerivedFrom.nil
  | cons x l ih =>
    exact DerivedFrom.keep rfl rfl rfl (hpos x (List.mem_cons_self _ _)) (le_refl _)
      (ih (fun it hit => hpos it (List.mem_cons_of_mem _ hit)))

/-- C9: every item emitted by display deduction derives from exactly one input
item in order, keeping its name, unit and category, with a strictly positive
quantity no larger than the input quantity; no new items appear. -/
theorem claim_C9_display_deduction_shrinks : ∀ (pantry : List PantryRow)
    (items : List GroceryItem),
    (∀ it ∈ items, 0 < it.quantity) → (∀ p ∈ pantry, 0 ≤ p.quantity) →
    DerivedFrom items (deduct_pantry_from_list pantry items) := by
  intro pantry items hpos hrows
  unfold deduct_pantry_from_list
  by_cases hne : pantry = []
  · rw [if_pos hne]
    exact derivedFrom_refl hpos
  · rw [if_neg hne]
    simp only []
    induction items with
    | nil => exact DerivedFrom.nil
    | cons g rest ih =>
      have hg : 0 < g.quantity := hpos g (List.mem_cons_self _ _)
      have hrest : ∀ it ∈ rest, 0 < it.quantity :=
        fun it hit => hpos it (List.mem_cons_of_mem _ hit)
      rw [List.filterMap_cons]
      rcases hlk : (pantryMap pantry).lookup (normalize_ingredient_name g.ingredient_name)
        with _ | entries
      · simp only []
        exact DerivedFrom.keep rfl rfl rfl hg (le_refl _) (ih hrest)
      · simp only []
        have hentries : ∀ p ∈ entries, 0 ≤ p.quantity := by
          intro p hp
          exact hrows p (pantryMap_rows pantry _ (lookup_mem hlk) p hp)
        have hle : remainingAfterPantry g.unit entries g.quantity ≤ g.quantity :=
          remainingAfterPantry_le hentries g.quantity
        by_cases h : (0.01 : ℚ) < remainingAfterPantry g.unit entries g.quantity
        · rw [if_pos h]
          exact DerivedFrom.keep rfl rfl rfl (lt_trans (by norm_num) h) hle (ih hrest)
        · rw [if_neg h]
          exact DerivedFrom.skip (ih hrest)

/-- C9 witness: pantry `2 cup flour` against `3 cup flour` and `1 l milk`:
flour shrinks to 1 cup, milk passes through. -/
theorem claim_C9_display_deduction_shrinks_witness :
    (∀ it ∈ ([⟨"flour", 3, "cup", "Pantry"⟩, ⟨"milk", 1, "l", "Dairy & Eggs"⟩] :
        List GroceryItem), 0 < it.quantity)
    ∧ (∀ p ∈ ([⟨"flour", 2, "cup"⟩] : List PantryRow), 0 ≤ p.quantity)
    ∧ DerivedFrom [⟨"flour", 3, "cup", "Pantry"⟩, ⟨"milk", 1, "l", "Dairy & Eggs"⟩]
        (deduct_pantry_from_list [⟨"flour", 2, "cup"⟩]
          [⟨"flour", 3, "cup", "Pantry"⟩, ⟨"milk", 1, "l", "Dairy & Eggs"⟩]) := by
  have h1 : ∀ it ∈ ([⟨"flour", 3, "cup", "Pantry"⟩, ⟨"milk", 1, "l", "Dairy & Eggs"⟩] :
      List GroceryItem), 0 < it.quantity := by decide
  have h2 : ∀ p ∈ ([⟨"flour", 2, "cup"⟩] : List PantryRow), 0 ≤ p.quantity := by decide
  exact ⟨h1, h2, claim_C9_display_deduction_shrinks _ _ h1 h2⟩

/-! ### `deduct_from_pantry` (`pantry_manager.py`) -/

/-- The row-update loop of `deduct_from_pantry`, walking the whole table:
rows of other ingredients pass through; matching rows are deducted greedily
(with the same unit-conversion policy as display deduction), deleted when
their quantity reaches ≤ 0, updated in place otherwise.  A raised
`ValueError` from the convert-back step propagates as `.error`. -/
def deductWalkAll (nn nu : String) : List PantryRow → ℚ → Except String (ℚ × List PantryRow)
  | [], needed => .ok (needed, [])
  | p :: rest, needed =>
    if p.ingredient_name = nn then
      if needed ≤ 0 then .ok (needed, p :: rest)
      else
        if p.unit = nu then
          match deductWalkAll nn nu rest (needed - min needed p.quantity) with
          | .ok (rem, rest2) =>
            .ok (rem, if p.quantity - min needed p.quantity ≤ 0 then rest2
              else ⟨p.ingredient_name, p.quantity - min needed p.quantity, p.unit⟩ :: rest2)
          | .error e => .error e
        else if can_convert_units p.unit nu then
          match convert_units p.quantity p.unit nu with
          | .ok usable =>
            match convert_units (min needed usable) nu p.unit with
            | .ok dpu =>
              match deductWalkAll nn nu rest (needed - min needed usable) with
              | .ok (rem, rest2) =>
                .ok (rem, if p.quantity - dpu ≤ 0 then rest2
                  else ⟨p.ingredient_name, p.quantity - dpu, p.unit⟩ :: rest2)
              | .error e => .error e
            | .error e => .error e
          | .error e =>
            match deductWalkAll nn nu rest needed with
            | .ok (rem, rest2) => .ok (rem, p :: rest2)
            | .error e => .error e
        else
          match deductWalkAll nn nu rest needed with
          | .ok (rem, rest2) => .ok (rem, p :: rest2)
          | .error e => .error e
    else
      match deductWalkAll nn nu rest needed with
      | .ok (rem, rest2) => .ok (rem, p :: rest2)
      | .error e => .error e

/-- `deduct_from_pantry` from `pantry_manager.py`: the pantry table is passed
and returned explicitly; the first component of the result is the quantity
that could not be satisfied. -/
def deduct_from_pantry (pantry : List PantryRow) (ingredient_name : String)
    (quantity : ℚ) (unit : String) : Except String (ℚ × List PantryRow) :=
  let nn := normalize_ingredient_name ingredient_name
  let nu := normalize_unit unit
  if pantry.filter (fun r => r.ingredient_name = nn) = [] then .ok (quantity, pantry)
  else
    match deductWalkAll nn nu pantry quantity with
    | .ok (rem, pantry2) => .ok (max 0 rem, pantry2)
    | .error e => .error e

theorem can_convert_units_symm (u1 u2 : String) :
    can_convert_units u1 u2 = can_convert_units u2 u1 := by
  cases h1 : can_convert_units u1 u2 <;> cases h2 : can_convert_units u2 u1
  · rfl
  · exfalso
    rcases (can_convert_units_iff u2 u1).1 h2 with he | ⟨a, b⟩ | ⟨a, b⟩
    · rw [(can_convert_units_iff u1 u2).2 (Or.inl he.symm)] at h1
      cases h1
    · rw [(can_convert_units_iff u1 u2).2 (Or.inr (Or.inl ⟨b, a⟩))] at h1
      cases h1
    · rw [(can_convert_units_iff u1 u2).2 (Or.inr (Or.inr ⟨b, a⟩))] at h1
      cases h1
  · exfalso
    rcases (can_convert_units_iff u1 u2).1 h1 with he | ⟨a, b⟩ | ⟨a, b⟩
    · rw [(can_convert_units_iff u2 u1).2 (Or.inl he.symm)] at h2
      cases h2
    · rw [(can_convert_units_iff u2 u1).2 (Or.inr (Or.inl ⟨b, a⟩))] at h2
      cases h2
    · rw [(can_convert_units_iff u2 u1).2 (Or.inr (Or.inr ⟨b, a⟩))] at h2
      cases h2
  · rfl

theorem deductWalkAll_spec (nn nu : String) :
    ∀ (rows : List PantryRow) (needed : ℚ),
    ∃ rem rows2, deductWalkAll nn nu rows needed = .ok (rem, rows2)
      ∧ rem = remainingAfterPantry nu
          (rows.filter (fun r => r.ingredient_name = nn)) needed
      ∧ rows2.filter (fun r => ¬ r.ingredient_name = nn)
          = rows.filter (fun r => ¬ r.ingredient_name = nn)
      ∧ ((∀ r ∈ rows, 0 < r.quantity) → ∀ r ∈ rows2, 0 < r.quantity) := by
  intro rows
  induction rows with
  | nil =>
    intro needed
    exact ⟨needed, [], rfl, rfl, rfl, fun _ r hr => absurd hr (List.not_mem_nil r)⟩
  | cons p rest ih =>
    intro needed
    by_cases hname : p.ingredient_name = nn
    · by_cases h0 : needed ≤ 0
      · refine ⟨needed, p :: rest, ?_, ?_, rfl, fun h => h⟩
        · rw [deductWalkAll, if_pos hname, if_pos h0]
        · rw [List.filter_cons, if_pos (by simpa using hname), remainingAfterPantry,
            if_pos h0]
      · by_cases hu : p.unit = nu
        · rcases ih (needed - min needed p.quantity) with ⟨rem, rest2, hwalk, hrem, hframe, hpos⟩
          refine ⟨rem, if p.quantity - min needed p.quantity ≤ 0 then rest2
            else ⟨p.ingredient_name, p.quantity - min needed p.quantity, p.unit⟩ :: rest2,
            ?_, ?_, ?_, ?_⟩
          · rw [deductWalkAll, if_pos hname, if_neg h0, if_pos hu, hwalk]
          · rw [List.filter_cons, if_pos (by simpa using hname), remainingAfterPantry,
              if_neg h0, if_pos hu]
            exact hrem
          · by_cases hdel : p.quantity - min needed p.quantity ≤ 0
            · rw [if_pos hdel, hframe, List.filter_cons, if_neg (by simpa using hname)]
            · rw [if_neg hdel, List.filter_cons, if_neg (by simpa using hname),
                List.filter_cons, if_neg (by simpa using hname), hframe]
          · intro hall r hr
            have hrest : ∀ r ∈ rest, 0 < r.quantity :=
              fun r h => hall r (List.mem_cons_of_mem _ h)
            by_cases hdel : p.quantity - min needed p.quantity ≤ 0
            · rw [if_pos hdel] at hr
              exact hpos hrest r hr
            · rw [if_neg hdel] at hr
              rcases List.mem_cons.1 hr with rfl | hr2
              · simpa using lt_of_not_le hdel
              · exact hpos hrest r hr2
        · by_cases hc : can_convert_units p.unit nu
          · rcases convert_units_ok_of_can (q := p.quantity) hc with ⟨usable, husable⟩
            have hcback : can_convert_units nu p.unit = true := by
              rw [can_convert_units_symm]
              exact hc
            rcases convert_units_ok_of_can (q := min needed usable) hcback with ⟨dpu, hdpu⟩
            rcases ih (needed - min needed usable) with ⟨rem, rest2, hwalk, hrem, hframe, hpos⟩
            refine ⟨rem, if p.quantity - dpu ≤ 0 then rest2
              else ⟨p.ingredient_name, p.quantity - dpu, p.unit⟩ :: rest2, ?_, ?_, ?_, ?_⟩
            · rw [deductWalkAll, if_pos hname, if_neg h0, if_neg hu, if_pos hc, husable]
              simp only []
              rw [hdpu]
              simp only []
              rw [hwalk]
            · rw [List.filter_cons, if_pos (by simpa using hname), remainingAfterPantry,
                if_neg h0, if_neg hu, if_pos hc, husable]
              exact hrem
            · by_cases hdel : p.quantity - dpu ≤ 0
              · rw [if_pos hdel, hframe, List.filter_cons, if_neg (by simpa using hname)]
              · rw [if_neg hdel, List.filter_cons, if_neg (by simpa using hname),
                  List.filter_cons, if_neg (by simpa using hname), hframe]
            · intro hall r hr
              have hrest : ∀ r ∈ rest, 0 < r.quantity :=
                fun r h => hall r (List.mem_cons_of_mem _ h)
              by_cases hdel : p.quantity - dpu ≤ 0
              · rw [if_pos hdel] at hr
                exact hpos hrest r hr
              · rw [if_neg hdel] at hr
                rcases List.mem_cons.1 hr with rfl | hr2
                · simpa using lt_of_not_le hdel
                · exact hpos hrest r hr2
          · rcases ih needed with ⟨rem, rest2, hwalk, hrem, hframe, hpos⟩
            refine ⟨rem, p :: rest2, ?_, ?_, ?_, ?_⟩
            · rw [deductWalkAll, if_pos hname, if_neg h0, if_neg hu,
                if_neg (by simpa using hc), hwalk]
            · rw [List.filter_cons, if_pos (by simpa using hname), remainingAfterPantry,
                if_neg h0, if_neg hu, if_neg (by simpa using hc)]
              exact hrem
            · rw [List.filter_cons, if_neg (by simpa using hname),
                List.filter_cons, if_neg (by simpa using hname)]
              exact hframe
            · intro hall r hr
              rcases List.mem_cons.1 hr with rfl | hr2
              · exact hall r (List.mem_cons_self _ _)
              · exact hpos (fun x h => hall x (List.mem_cons_of_mem _ h)) r hr2
    · rcases ih needed with ⟨rem, rest2, hwalk, hrem, hframe, hpos⟩
      refine ⟨rem, p :: rest2, ?_, ?_, ?_, ?_⟩
      · rw [deductWalkAll, if_neg hname, hwalk]
      · rw [List.filter_cons, if_neg (by simpa using hname)]
        exact hrem
      · rw [List.filter_cons, if_pos (by simpa using hname),
          List.filter_cons, if_pos (by simpa using hname), hframe]
      · intro hall r hr
        rcases List.mem_cons.1 hr with rfl | hr2
        · exact hall r (List.mem_cons_self _ _)
        · exact hpos (fun x h => hall x (List.mem_cons_of_mem _ h)) r hr2

/-- C7: the explicit pantry-mutating deduction never raises; it returns the
unsatisfied quantity — the full request when no row matches, otherwise
`max 0` of exactly the same greedy remaining-need computation (same
unit-conversion policy) used by display deduction over the matching rows;
rows of other ingredients are untouched in order, every surviving row has
positive quantity (rows reaching ≤ 0 are deleted), and the spec scenario
`deduct 0.5 cup flour from a 2 cup row → row 1.5 cup, return 0` holds. -/
theorem claim_C7_deduct_from_pantry_mutation :
    (∀ (pantry : List PantryRow) (n : String) (q : ℚ) (u : String),
      ∃ rem pantry2,
        deduct_from_pantry pantry n q u = .ok (rem, pantry2)
        ∧ (pantry.filter (fun r => r.ingredient_name = normalize_ingredient_name n) = [] →
            rem = q ∧ pantry2 = pantry)
        ∧ (pantry.filter (fun r => r.ingredient_name = normalize_ingredient_name n) ≠ [] →
            rem = max 0 (remainingAfterPantry (normalize_unit u)
              (pantry.filter (fun r => r.ingredient_name = normalize_ingredient_name n)) q))
        ∧ pantry2.filter (fun r => ¬ r.ingredient_name = normalize_ingredient_name n)
            = pantry.filter (fun r => ¬ r.ingredient_name = normalize_ingredient_name n)
        ∧ ((∀ r ∈ pantry, 0 < r.quantity) → ∀ r ∈ pantry2, 0 < r.quantity))
    ∧ deduct_from_pantry [⟨"flour", 2, "cup"⟩] "flour" (1/2) "cup"
        = .ok (0, [⟨"flour", 3/2, "cup"⟩]) := by
  constructor
  · intro pantry n q u
    by_cases hmatch : pantry.filter
        (fun r => r.ingredient_name = normalize_ingredient_name n) = []
    · refine ⟨q, pantry, ?_, fun _ => ⟨rfl, rfl⟩, fun h => absurd hmatch h, rfl, fun h => h⟩
      unfold deduct_from_pantry
      rw [if_pos hmatch]
    · rcases deductWalkAll_spec (normalize_ingredient_name n) (normalize_unit u) pantry q
        with ⟨rem, pantry2, hwalk, hrem, hframe, hpos⟩
      refine ⟨max 0 rem, pantry2, ?_, fun h => absurd h hmatch, fun _ => by rw [hrem],
        hframe, hpos⟩
      unfold deduct_from_pantry
      rw [if_neg hmatch, hwalk]
  · norm_num [deduct_from_pantry, deductWalkAll, remainingAfterPantry, List.filter,
      show normalize_ingredient_name "flour" = "flour" from by decide,
      show normalize_unit "cup" = "cup" from by decide]

/-- C7 witness: the general statement applied to the spec scenario, with the
match hypothesis and row positivity discharged. -/
theorem claim_C7_deduct_from_pantry_mutation_witness :
    (([⟨"flour", 2, "cup"⟩] : List PantryRow).filter
        (fun r => r.ingredient_name = normalize_ingredient_name "flour") ≠ [])
    ∧ (∀ r ∈ ([⟨"flour", 2, "cup"⟩] : List PantryRow), 0 < r.quantity)
    ∧ ∃ rem pantry2,
        deduct_from_pantry [⟨"flour", 2, "cup"⟩] "flour" (1/2) "cup" = .ok (rem, pantry2)
        ∧ rem = max 0 (remainingAfterPantry (normalize_unit "cup")
            (([⟨"flour", 2, "cup"⟩] : List PantryRow).filter
              (fun r => r.ingredient_name = normalize_ingredient_name "flour")) (1/2))
        ∧ (∀ r ∈ pantry2, 0 < r.quantity) := by
  have hm : ([⟨"flour", 2, "cup"⟩] : List PantryRow).filter
      (fun r => r.ingredient_name = normalize_ingredient_name "flour") ≠ [] := by decide
  have hp : ∀ r ∈ ([⟨"flour", 2, "cup"⟩] : List PantryRow), 0 < r.quantity := by decide
  obtain ⟨rem, pantry2, h1, _, h3, _, h5⟩ :=
    claim_C7_deduct_from_pantry_mutation.1 [⟨"flour", 2, "cup"⟩] "flour" (1/2) "cup"
  exact ⟨hm, hp, rem, pantry2, h1, h3 hm, h5 hp⟩

/-! ### `generate_grocery_list` (`grocery_generator.py`) -/

/-- `RecipeIngredient` from `models.py`. -/
structure RecipeIngredient where
  ingredient_name : String
  quantity : ℚ
  unit : String
deriving Repr, DecidableEq

/-- `Recipe` from `models.py` (the fields the generator reads; `servings` is
an integer in the source, modelled by its rational value as used in the
float division `meal.servings / recipe.servings`). -/
structure Recipe where
  servings : ℚ
  ingredients : List RecipeIngredient
deriving Repr, DecidableEq

/-- `PlannedMeal` from `models.py` (the fields the generator reads). -/
structure PlannedMeal where
  recipe : Recipe
  servings : ℚ
deriving Repr, DecidableEq

/-- `MealPlan` from `models.py` (the fields the generator reads). -/
structure MealPlan where
  meals : List PlannedMeal
deriving Repr, DecidableEq

/-- The ingredient-collection loop of `generate_grocery_list`: scale every
recipe ingredient by `meal.servings / recipe.servings`. -/
def scaleIngredients (meal_plan : MealPlan) : List Entry :=
  meal_plan.meals.flatMap (fun meal =>
    meal.recipe.ingredients.map (fun ing =>
      ⟨ing.ingredient_name, ing.quantity * (meal.servings / meal.recipe.servings), ing.unit⟩))

/-- `category_order` from `generate_grocery_list`. -/
def category_order : List String :=
  ["Produce", "Meat & Seafood", "Dairy & Eggs", "Bakery", "Pantry",
   "Canned Goods", "Condiments", "Frozen", "Other"]

/-- `sort_key`: position in `category_order`, or its length for unknown
categories (`ValueError` branch). -/
def sort_key (item : GroceryItem) : ℕ :=
  (category_order.indexOf? item.category).getD category_order.length

/-- Stable insertion: an item goes before the first strictly larger key, so
equal keys keep their original relative order (Python's `list.sort` is
stable; any stable sort by the same key produces this list). -/
def insertSorted (x : GroceryItem) : List GroceryItem → List GroceryItem
  | [] => [x]
  | y :: ys => if sort_key x ≤ sort_key y then x :: y :: ys else y :: insertSorted x ys

/-- `grocery_items.sort(key=sort_key)` as a stable sort. -/
def sortByCategory (l : List GroceryItem) : List GroceryItem :=
  l.foldr insertSorted []

/-- `generate_grocery_list` from `grocery_generator.py`.  The pantry snapshot
is passed explicitly; the second component of the result is the pantry state
after the call — the display path performs no pantry writes (it only calls
`get_pantry_items`), so the snapshot is passed through. -/
def generate_grocery_list (meal_plan : MealPlan) (pantry : List PantryRow)
    (deduct_pantry : Bool) : List GroceryItem × List PantryRow :=
  let grocery_items := consolidate_ingredients (scaleIngredients meal_plan)
  let grocery_items :=
    if deduct_pantry then deduct_pantry_from_list pantry grocery_items else grocery_items
  (sortByCategory grocery_items, pantry)

theorem insertSorted_pairwise {x : GroceryItem} {s : List GroceryItem}
    (hs : s.Pairwise (fun a b => sort_key a ≤ sort_key b)) :
    (insertSorted x s).Pairwise (fun a b => sort_key a ≤ sort_key b) := by
  induction s with
  | nil => simp [insertSorted]
  | cons y ys ih =>
    rw [List.pairwise_cons] at hs
    rw [insertSorted]
    by_cases h : sort_key x ≤ sort_key y
    · rw [if_pos h]
      rw [List.pairwise_cons]
      refine ⟨?_, List.Pairwise.cons hs.1 hs.2⟩
      intro z hz
      rcases List.mem_cons.1 hz with rfl | hz2
      · exact h
      · exact le_trans h (hs.1 z hz2)
    · rw [if_neg h]
      rw [List.pairwise_cons]
      refine ⟨?_, ih hs.2⟩
      intro z hz
      have hmem : ∀ w s2, w ∈ insertSorted x s2 → w = x ∨ w ∈ s2 := by
        intro w s2
        induction s2 with
        | nil =>
          intro hw
          simp [insertSorted] at hw
          exact Or.inl hw
        | cons a as iha =>
          intro hw
          rw [insertSorted] at hw
          by_cases ha : sort_key x ≤ sort_key a
          · rw [if_pos ha] at hw
            rcases List.mem_cons.1 hw with rfl | hw2
            · exact Or.inl rfl
            · exact Or.inr hw2
          · rw [if_neg ha] at hw
            rcases List.mem_cons.1 hw with rfl | hw2
            · exact Or.inr (List.mem_cons_self _ _)
            · rcases iha hw2 with h1 | h1
              · exact Or.inl h1
              · exact Or.inr (List.mem_cons_of_mem _ h1)
      rcases hmem z ys hz with rfl | hz2
      · exact le_of_lt (lt_of_not_le h)
      · exact hs.1 z hz2

theorem sortByCategory_pairwise (l : List GroceryItem) :
    (sortByCategory l).Pairwise (fun a b => sort_key a ≤ sort_key b) := by
  induction l with
  | nil => simp [sortByCategory]
  | cons x rest ih =>
    rw [sortByCategory, List.foldr_cons]
    exact insertSorted_pairwise ih

theorem insertSorted_filter_pos {c : String} {x : GroceryItem} (hx : x.category = c)
    (s : List GroceryItem) :
    (insertSorted x s).filter (fun it => it.category = c) =
      x :: s.filter (fun it => it.category = c) := by
  induction s with
  | nil => simp [insertSorted, List.filter, hx]
  | cons y ys ih =>
    rw [insertSorted]
    by_cases h : sort_key x ≤ sort_key y
    · rw [if_pos h, List.filter_cons, if_pos (by simpa using hx)]
    · rw [if_neg h]
      have hy : ¬ y.category = c := by
        intro hyc
        apply h
        have : sort_key x = sort_key y := by
          unfold sort_key
          rw [hx, hyc]
        exact le_of_eq this
      rw [List.filter_cons, if_neg (by simpa using hy), ih,
        List.filter_cons, if_neg (by simpa using hy)]

theorem insertSorted_filter_neg {c : String} {x : GroceryItem} (hx : ¬ x.category = c)
    (s : List GroceryItem) :
    (insertSorted x s).filter (fun it => it.category = c) =
      s.filter (fun it => it.category = c) := by
  induction s with
  | nil => simp [insertSorted, List.filter, hx]
  | cons y ys ih =>
    rw [insertSorted]
    by_cases h : sort_key x ≤ sort_key y
    · rw [if_pos h, List.filter_cons, if_neg (by simpa using hx)]
    · rw [if_neg h, List.filter_cons, List.filter_cons, ih]

theorem sortByCategory_stable (l : List GroceryItem) (c : String) :
    (sortByCategory l).filter (fun it => it.category = c) =
      l.filter (fun it => it.category = c) := by
  induction l with
  | nil => rfl
  | cons x rest ih =>
    rw [sortByCategory, List.foldr_cons]
    by_cases hx : x.category = c
    · rw [insertSorted_filter_pos hx, List.filter_cons, if_pos (by simpa using hx)]
      rw [show (List.foldr insertSorted [] rest) = sortByCategory rest from rfl, ih]
    · rw [insertSorted_filter_neg hx, List.filter_cons, if_neg (by simpa using hx)]
      rw [show (List.foldr insertSorted [] rest) = sortByCategory rest from rfl, ih]

theorem insertSorted_perm (x : GroceryItem) (s : List GroceryItem) :
    (insertSorted x s).Perm (x :: s) := by
  induction s with
  | nil => exact List.Perm.refl _
  | cons y ys ih =>
    rw [insertSorted]
    by_cases h : sort_key x ≤ sort_key y
    · rw [if_pos h]
    · rw [if_neg h]
      exact List.Perm.trans (List.Perm.cons y ih) (List.Perm.swap x y ys)

theorem sortByCategory_perm (l : List GroceryItem) : (sortByCategory l).Perm l := by
  induction l with
  | nil => exact List.Perm.refl _
  | cons x rest ih =>
    rw [sortByCategory, List.foldr_cons]
    exact List.Perm.trans (insertSorted_perm x _) (List.Perm.cons x ih)

theorem indexOf?_eq_none_of_not_mem {s : String} {l : List String} (h : s ∉ l) :
    l.indexOf? s = none := by
  rw [List.indexOf?]
  have hgen : ∀ (l2 : List String), s ∉ l2 → ∀ i,
      List.findIdx? (· == s) l2 i = none := by
    intro l2
    induction l2 with
    | nil => intro _ i; rfl
    | cons a as ih =>
      intro hna i
      rw [List.findIdx?_cons]
      have hb : (a == s) = false := by
        simp
        intro he
        exact absurd (he ▸ List.mem_cons_self a as) hna
      rw [hb, if_neg (by simp)]
      exact ih (fun hm => hna (List.mem_cons_of_mem _ hm)) (i + 1)
  exact hgen l h 0

/-! ### Claims C2 and C8 -/

/-- C2: list generation with pantry deduction only reads the pantry snapshot:
the pantry state after the call is exactly the snapshot before it, and a
second call on the unchanged pantry returns the identical grocery list. -/
theorem claim_C2_generation_is_read_only : ∀ (plan : MealPlan) (pantry : List PantryRow),
    (generate_grocery_list plan pantry true).2 = pantry
    ∧ (generate_grocery_list plan ((generate_grocery_list plan pantry true).2) true).1
        = (generate_grocery_list plan pantry true).1
    ∧ generate_grocery_list plan ((generate_grocery_list plan pantry true).2) true
        = generate_grocery_list plan pantry true := by
  intro plan pantry
  exact ⟨rfl, rfl, rfl⟩

/-- C8: the final list is the pre-sort list stably sorted by the fixed
category priority: keys are positions in `category_order` (with every
unrecognised category keyed strictly after all named ones), the output is
sorted by that key, it is a permutation of the pre-sort list, and items of
any one category keep their pre-sort relative order. -/
theorem claim_C8_category_sort_stable : ∀ (plan : MealPlan) (pantry : List PantryRow)
    (dp : Bool),
    (generate_grocery_list plan pantry dp).1
        = sortByCategory (if dp then deduct_pantry_from_list pantry
            (consolidate_ingredients (scaleIngredients plan))
          else consolidate_ingredients (scaleIngredients plan))
    ∧ (generate_grocery_list plan pantry dp).1.Pairwise
        (fun a b => sort_key a ≤ sort_key b)
    ∧ ((generate_grocery_list plan pantry dp).1.Perm
        (if dp then deduct_pantry_from_list pantry
            (consolidate_ingredients (scaleIngredients plan))
          else consolidate_ingredients (scaleIngredients plan)))
    ∧ (∀ c : String,
        (generate_grocery_list plan pantry dp).1.filter (fun it => it.category = c)
          = (if dp then deduct_pantry_from_list pantry
              (consolidate_ingredients (scaleIngredients plan))
            else consolidate_ingredients (scaleIngredients plan)).filter
              (fun it => it.category = c))
    ∧ (∀ it : GroceryItem, it.category ∉ category_order →
        sort_key it = category_order.length) := by
  intro plan pantry dp
  refine ⟨?_, ?_, ?_, ?_, ?_⟩
  · cases dp <;> rfl
  · exact sortByCategory_pairwise _
  · cases dp <;> exact sortByCategory_perm _
  · intro c
    cases dp <;> exact sortByCategory_stable _ c
  · intro it hmem
    unfold sort_key
    rw [indexOf?_eq_none_of_not_mem hmem]
    rfl

/-- C8 witness: an item with the unrecognised category "Deli" keys after all
named categories. -/
theorem claim_C8_category_sort_stable_witness :
    (GroceryItem.mk "x" 1 "cup" "Deli").category ∉ category_order
    ∧ sort_key ⟨"x", 1, "cup", "Deli"⟩ = category_order.length :=
  ⟨by decide,
   (claim_C8_category_sort_stable ⟨[]⟩ [] true).2.2.2.2 ⟨"x", 1, "cup", "Deli"⟩ (by decide)⟩

end MealPlanner
